import Mathlib

/-!
Verification development for the emojic build-time generator
(`emojic-gen`), centered on the person-emoji attribute qualification and
splitting engine.

The Lean definitions below are a shallow embedding of the Rust sources:
* `src/emojic/src/emojis/attributes.rs` (attribute vocabularies),
* `src/emojic-gen/src/emoji/people/groups.rs` (`PersonKind`,
  `PersonKindSelector`, `PersonKindGroup`),
* `src/emojic-gen/src/emoji/people/qualifier.rs` (`QualifierSet`, the
  `Qualifier` trait with `validate`/`qualify`, `PersonQualified`),
* `src/emojic-gen/src/emoji/people.rs` (`PersonEmoji`, `scrub`,
  `default_variants`, `full_emoji_list`),
* `src/emojic-gen/src/emoji.rs` (the merge steps of `Subgroup::sort` and
  `Subgroup::append_person`).

Rust `HashMap`s are modelled as association lists; where the Rust code
iterates a hash map in unspecified order, the model fixes first-insertion
order (the permutation-invariance of the deterministic outputs is itself
one of the verified claims).  Rust panics (`panic!`, `debug_assert!`,
indexing) are modelled by `Option` results or by explicit boolean flags,
as noted at each definition.
-/

namespace Emojic

/-- Skin tone attribute, source `Tone` in attributes.rs (5 values, declaration
order Light .. Dark). -/
inductive Tone where
  | Light
  | MediumLight
  | Medium
  | MediumDark
  | Dark
deriving DecidableEq, Repr

/-- Source `Tone::ALL`. -/
def Tone.ALL : List Tone :=
  [.Light, .MediumLight, .Medium, .MediumDark, .Dark]

/-- Discriminant of `Tone`, used to mirror the derived `Ord` instance. -/
def Tone.idx : Tone → Nat
  | .Light => 0
  | .MediumLight => 1
  | .Medium => 2
  | .MediumDark => 3
  | .Dark => 4

/-- Source `Tone::name`. -/
def Tone.name : Tone → String
  | .Light => "light skin tone"
  | .MediumLight => "medium-light skin tone"
  | .Medium => "medium skin tone"
  | .MediumDark => "medium-dark skin tone"
  | .Dark => "dark skin tone"

/-- Rust `{:?}` (Debug) rendering of a `Tone`. -/
def Tone.dbg : Tone → String
  | .Light => "Light"
  | .MediumLight => "MediumLight"
  | .Medium => "Medium"
  | .MediumDark => "MediumDark"
  | .Dark => "Dark"

/-- Gender attribute, source `Gender` in attributes.rs. -/
inductive Gender where
  | Male
  | Female
deriving DecidableEq, Repr

/-- Source `Gender::ALL`. -/
def Gender.ALL : List Gender := [.Male, .Female]

/-- Discriminant of `Gender`. -/
def Gender.idx : Gender → Nat
  | .Male => 0
  | .Female => 1

/-- Source `Gender::name_adults`. -/
def Gender.name_adults : Gender → String
  | .Male => "man"
  | .Female => "woman"

/-- Source `Gender::name_children`. -/
def Gender.name_children : Gender → String
  | .Male => "boy"
  | .Female => "girl"

/-- Rust Debug rendering of a `Gender`. -/
def Gender.dbg : Gender → String
  | .Male => "Male"
  | .Female => "Female"

/-- Gender of a pair of people, source `Pair` in attributes.rs. -/
inductive Pair where
  | Males
  | Mixed
  | Females
deriving DecidableEq, Repr

/-- Source `Pair::ALL`. -/
def Pair.ALL : List Pair := [.Males, .Mixed, .Females]

/-- Discriminant of `Pair`. -/
def Pair.idx : Pair → Nat
  | .Males => 0
  | .Mixed => 1
  | .Females => 2

/-- Source `Pair::name_adults`. -/
def Pair.name_adults : Pair → String
  | .Males => "men"
  | .Mixed => "man & woman"
  | .Females => "women"

/-- Source `Pair::name_children`. -/
def Pair.name_children : Pair → String
  | .Males => "boys"
  | .Mixed => "boy & girl"
  | .Females => "girls"

/-- Rust Debug rendering of a `Pair`. -/
def Pair.dbg : Pair → String
  | .Males => "Males"
  | .Mixed => "Mixed"
  | .Females => "Females"

/-- One person (a `Gender`) or two people (a `Pair`); source `OneOrTwo`. -/
inductive OneOrTwo where
  | One (g : Gender)
  | Two (p : Pair)
deriving DecidableEq, Repr

/-- Source `OneOrTwo::ALL`. -/
def OneOrTwo.ALL : List OneOrTwo :=
  [.One .Male, .One .Female, .Two .Males, .Two .Mixed, .Two .Females]

/-- Index compatible with the derived `Ord` of `OneOrTwo`
(`One _ < Two _`, payloads by discriminant); coincides with
`OneOrTwo::to_id`. -/
def OneOrTwo.idx : OneOrTwo → Nat
  | .One g => g.idx
  | .Two p => 2 + p.idx

/-- Source `OneOrTwo::name_adults`. -/
def OneOrTwo.name_adults : OneOrTwo → String
  | .One o => o.name_adults
  | .Two t => t.name_adults

/-- Source `OneOrTwo::name_children`. -/
def OneOrTwo.name_children : OneOrTwo → String
  | .One o => o.name_children
  | .Two t => t.name_children

/-- Source `OneOrTwo::fancy_source` (qualifier.rs). -/
def OneOrTwo.fancy_source : OneOrTwo → String
  | .One g => "Gender::" ++ g.dbg
  | .Two p => "Pair::" ++ p.dbg

/-- Source `OneOrTwo::fancy_full_source` (qualifier.rs). -/
def OneOrTwo.fancy_full_source : OneOrTwo → String
  | .One g => "OneOrTwo::One(Gender::" ++ g.dbg ++ ")"
  | .Two p => "OneOrTwo::Two(Pair::" ++ p.dbg ++ ")"

/-- Hair style attribute, source `Hair` in attributes.rs (6 values). -/
inductive Hair where
  | Beard
  | Blond
  | Red
  | Curly
  | White
  | Bald
deriving DecidableEq, Repr

/-- Source `Hair::ALL`. -/
def Hair.ALL : List Hair := [.Beard, .Blond, .Red, .Curly, .White, .Bald]

/-- Discriminant of `Hair`. -/
def Hair.idx : Hair → Nat
  | .Beard => 0
  | .Blond => 1
  | .Red => 2
  | .Curly => 3
  | .White => 4
  | .Bald => 5

/-- Source `Hair::name`. -/
def Hair.name : Hair → String
  | .Beard => "beard"
  | .Bald => "no hair"
  | .Blond => "blond hair"
  | .Red => "red hair"
  | .Curly => "curly hair"
  | .White => "white hair"

/-- Rust Debug rendering of a `Hair`. -/
def Hair.dbg : Hair → String
  | .Beard => "Beard"
  | .Blond => "Blond"
  | .Red => "Red"
  | .Curly => "Curly"
  | .White => "White"
  | .Bald => "Bald"

/-- Unicode emoji version, source `Version(pub u64, pub u64)`. -/
structure Version where
  major : Nat
  minor : Nat
deriving DecidableEq, Repr

/-- Variant payload, source `PersonVariant` in people.rs. -/
structure PersonVariant where
  full_name : String
  grapheme : String
  since : Version
deriving DecidableEq, Repr

/-- Single emoji variant identified by its full set of attributes; source
`PersonKind` in groups.rs.  A `none` slot is the default / absence of the
attribute. -/
structure PersonKind where
  hair : Option Hair
  people : Option (OneOrTwo × Option OneOrTwo)
  tone : Option (Tone × Option Tone)
deriving DecidableEq, Repr

/-- Source `PersonKind::default()` (all fields `None`). -/
def PersonKind.default : PersonKind := ⟨none, none, none⟩

/-- Source `PersonKind::default_level`: classifies how generic this kind is. -/
def PersonKind.default_level (k : PersonKind) : Nat :=
  (if k.hair = none then 1 else 0)
    + 2 * (if (k.people.bind (fun p => p.2)) = none then 1 else 0)
    + 4 * (if k.people = none then 1 else 0)
    + 8 * (if (k.tone.bind (fun t => t.2)) = none then 1 else 0)
    + 16 * (if k.tone = none then 1 else 0)

/-- Emoji variant selector, source `PersonKindSelector` in groups.rs.
Per slot: `none` selects every value, `some none` only the default value,
`some (some v)` exactly `v`. -/
structure PersonKindSelector where
  hair : Option (Option Hair)
  people : Option (Option (OneOrTwo × Option OneOrTwo))
  tone : Option (Option (Tone × Option Tone))
deriving DecidableEq, Repr

/-- One slot of `PersonKindSelector::selects`:
`self.slot.map(|h| h == kind.slot) != Some(false)`. -/
def slotSelects {α : Type} [DecidableEq α] (s : Option (Option α))
    (v : Option α) : Bool :=
  match s with
  | none => true
  | some x => x = v

/-- Source `PersonKindSelector::selects`. -/
def PersonKindSelector.selects (s : PersonKindSelector) (k : PersonKind) :
    Bool :=
  slotSelects s.hair k.hair && slotSelects s.people k.people
    && slotSelects s.tone k.tone

/-- Source `impl From<PersonKind> for PersonKindSelector`: each slot becomes
`Some slot` (select exactly this value, including "only the default"). -/
def PersonKindSelector.ofKind (k : PersonKind) : PersonKindSelector :=
  ⟨some k.hair, some k.people, some k.tone⟩

/-- Numeric key of an `Option`, mirroring the derived Rust order
`None < Some _`; `f` must itself be order-compatible and bounded. -/
def optKey {α : Type} (f : α → Nat) : Option α → Nat
  | none => 0
  | some a => f a + 1

/-- Order key for `(Tone, Option Tone)` compatible with the derived
lexicographic `Ord` (bounded by 29). -/
def tonePairKey (p : Tone × Option Tone) : Nat :=
  p.1.idx * 6 + optKey Tone.idx p.2

/-- Order key for `(OneOrTwo, Option OneOrTwo)` compatible with the derived
lexicographic `Ord` (bounded by 29). -/
def peoplePairKey (p : OneOrTwo × Option OneOrTwo) : Nat :=
  p.1.idx * 6 + optKey OneOrTwo.idx p.2

/-- Total order key of a `PersonKindSelector`, compatible with its derived
Rust `Ord` (lexicographic in hair, people, tone; `None < Some`).  Each slot
key is strictly below its weight, so the combination is lexicographic, and
the whole map is injective. -/
def PersonKindSelector.key (s : PersonKindSelector) : Nat :=
  optKey (optKey Hair.idx) s.hair * 1024
    + optKey (optKey peoplePairKey) s.people * 32
    + optKey (optKey tonePairKey) s.tone

/-- Total order key of a `PersonKind`, compatible with its derived Rust
`Ord`. -/
def PersonKind.key (k : PersonKind) : Nat :=
  optKey Hair.idx k.hair * 1024 + optKey peoplePairKey k.people * 32
    + optKey tonePairKey k.tone

/-- Replacement of every (leftmost, non-overlapping) occurrence of `pat` by
`rep` on character lists, fuelled for structural recursion (each step
consumes at least one character of `s`); models Rust `str::replace` for a
non-empty pattern. -/
def replaceCh : Nat → List Char → List Char → List Char → List Char
  | 0, s, _, _ => s
  | _ + 1, [], _, _ => []
  | fuel + 1, c :: rest, pat, rep =>
    match pat with
    | [] => c :: rest
    | p :: ps =>
      if (p :: ps).isPrefixOf (c :: rest) then
        rep ++ replaceCh fuel ((c :: rest).drop (p :: ps).length) (p :: ps) rep
      else
        c :: replaceCh fuel rest (p :: ps) rep

/-- String wrapper for `replaceCh`. -/
def strReplace (s pat rep : String) : String :=
  String.mk (replaceCh s.toList.length s.toList pat.toList rep.toList)

/-- Source `PersonKindSelector::adapt_identifier`: appends human-readable
attribute names of the concrete slot values to the identifier (hair and
tone via " with "/" and " connectors, people by substituting the literal
"PERSON" placeholder). -/
def PersonKindSelector.adapt_identifier (s : PersonKindSelector)
    (id : String) : String :=
  -- the Rust closure `connector` yields " with " the first time and
  -- " and " afterwards; here the state is threaded explicitly
  let step1 :=
    match s.hair with
    | some (some h) => (id ++ " with " ++ h.name, true)
    | _ => (id, false)
  let step2 :=
    match s.people with
    | some (some (g, children)) =>
      let nm :=
        match children with
        | some c => g.name_adults ++ " with " ++ c.name_children
        | none => g.name_adults
      (strReplace step1.1 "PERSON" nm, step1.2)
    | _ => step1
  match s.tone with
  | some (some (t, secondary)) =>
    let conn := if step2.2 then " and " else " with "
    let base := step2.1 ++ conn ++ t.name
    match secondary with
    | some t2 => base ++ " & " ++ t2.name
    | none => base
  | _ => step2.1

/-- Association-list membership test, modelling `HashMap::contains_key`. -/
def containsKey {α β : Type} [DecidableEq α] (m : List (α × β)) (k : α) :
    Bool :=
  m.any (fun kv => kv.1 = k)

/-- Association-list lookup (first match), modelling `HashMap::get`. -/
def lookupKey {α β : Type} [DecidableEq α] (m : List (α × β)) (k : α) :
    Option β :=
  (m.find? (fun kv => kv.1 = k)).map Prod.snd

/-- Association-list removal of a key, modelling `HashMap::remove`. -/
def eraseKey {α β : Type} [DecidableEq α] (m : List (α × β)) (k : α) :
    List (α × β) :=
  m.filter (fun kv => ¬ kv.1 = k)

/-- Association-list insertion with overwrite, modelling `HashMap::insert`:
replaces the payload when the key is present, otherwise appends. -/
def insertKey {α β : Type} [DecidableEq α] (m : List (α × β)) (k : α)
    (v : β) : List (α × β) :=
  if containsKey m k then
    m.map (fun kv => if kv.1 = k then (k, v) else kv)
  else m ++ [(k, v)]

/-- First-occurrence deduplication with an accumulator of already seen
elements. -/
def dedupSeen {α : Type} [DecidableEq α] : List α → List α → List α
  | [], _ => []
  | a :: rest, seen =>
    if a ∈ seen then dedupSeen rest seen
    else a :: dedupSeen rest (a :: seen)

/-- First-occurrence deduplication, fixing a deterministic iteration order
for the modelled hash maps. -/
def dedupKeepFirst {α : Type} [DecidableEq α] (l : List α) : List α :=
  dedupSeen l []

/-- Stable insertion of `a` into a list sorted by the strict order `lt`:
`a` goes in front of the first element not strictly below it. -/
def insertSorted {α : Type} (lt : α → α → Bool) (a : α) : List α → List α
  | [] => [a]
  | b :: l => if lt b a then b :: insertSorted lt a l else a :: b :: l

/-- Stable insertion sort by the strict order `lt`; agrees with Rust's
stable `sort`/`sort_by_key` (equal keys keep their input order). -/
def stableSort {α : Type} (lt : α → α → Bool) : List α → List α
  | [] => []
  | a :: l => insertSorted lt a (stableSort lt l)

/-- Qualified tree of emoji variants, source `PersonQualified` /
`PersonQualifiedNode` / `PersonQualifiedLeaf` in qualifier.rs.  A `Node`
holds an optional default branch, an ordered list of
(const-accessor, public-accessor, sub-tree) entries and a dimension type
name; a `Leaf` is one concrete `PersonKind`. -/
inductive PersonQualified where
  | Node (deflt : Option PersonQualified)
      (subs : List (String × String × PersonQualified)) (type_name : String)
  | Leaf (leaf : PersonKind)
deriving Repr

mutual

/-- Concrete `PersonKind`s reachable in a qualified tree, in traversal order
(default branch first, then subs); the kinds listed by
`to_accessor_n_kind`. -/
def PersonQualified.leaves : PersonQualified → List PersonKind
  | .Leaf k => [k]
  | .Node none subs _ => leavesSubs subs
  | .Node (some d) subs _ => d.leaves ++ leavesSubs subs

/-- Leaves of a sub-tree list. -/
def leavesSubs : List (String × String × PersonQualified) → List PersonKind
  | [] => []
  | (_, _, s) :: rest => s.leaves ++ leavesSubs rest

end

mutual

/-- Source `PersonQualified::to_accessor_n_kind_internal` (with
`PersonQualifiedNode::to_accessor_n_kind` and
`PersonQualifiedLeaf::to_accessor_n_kind`): emits every reachable
(const-accessor path, public-accessor path, concrete kind) triple. -/
def PersonQualified.to_accessor_n_kind_internal :
    PersonQualified → String → String → List (String × String × PersonKind)
  | .Leaf k, c, p => [(c, p, k)]
  | .Node none subs _, c, p => accSubs subs c p
  | .Node (some d) subs _, c, p =>
    d.to_accessor_n_kind_internal (c ++ ".default") p ++ accSubs subs c p

/-- Accessor triples of a sub-tree list, extending both accessor paths. -/
def accSubs : List (String × String × PersonQualified) → String → String →
    List (String × String × PersonKind)
  | [], _, _ => []
  | (ca, pa, s) :: rest, c, p =>
    s.to_accessor_n_kind_internal (c ++ "." ++ ca) (p ++ "." ++ pa)
      ++ accSubs rest c p

end

/-- Source `PersonQualified::to_accessor_n_kind`. -/
def PersonQualified.to_accessor_n_kind (q : PersonQualified)
    (identifier : String) : List (String × String × PersonKind) :=
  q.to_accessor_n_kind_internal identifier identifier

/-- Specification of a qualified set of an attribute; source
`QualifierSet<T>` in qualifier.rs. -/
structure QualifierSet (T : Type) where
  set : List T
  type_name : String
  const_access_generator : T → String
  access_generator : T → String
  kind_translator : Option (PersonKindSelector → PersonKindSelector)

/-- One attribute dimension of the `Qualifier` trait: slot access on
selectors plus the ordered list of supported sets.  `junk` stands in for
the value of the Rust `unwrap()` calls on the unreachable `None` case. -/
structure Dim (T : Type) where
  getSel : PersonKindSelector → Option (Option T)
  setSel : PersonKindSelector → Option (Option T) → PersonKindSelector
  sets : List (QualifierSet T)
  junk : T

/-- Rust `Self::get_selector(k).unwrap().unwrap()` in `validate`; total via
the `junk` stand-in (the `None` cases are unreachable there, see
`validate`). -/
def unwrapSlot {T : Type} (x : Option (Option T)) (junk : T) : T :=
  match x with
  | some (some t) => t
  | _ => junk

/-- Test of one `QualifierSet` in `Qualifier::validate`: every value of the
set has a corresponding bucket member. -/
def coversSet {T : Type} [DecidableEq T] (d : Dim T)
    (gen : PersonKindSelector)
    (entries : List (PersonKindSelector × PersonQualified))
    (s : QualifierSet T) : Bool :=
  s.set.all (fun t => containsKey entries (d.setSel gen (some (some t))))

/-- Node construction of `Qualifier::validate` once a set matched: remove
the default-level member as the default branch, apply the optional
normalization rule to the keys, sort by selector, and generate accessor
names. -/
def buildNode {T : Type} [DecidableEq T] (d : Dim T)
    (gen : PersonKindSelector)
    (entries : List (PersonKindSelector × PersonQualified))
    (s : QualifierSet T) : PersonKindSelector × PersonQualified :=
  let defSel := d.setSel gen (some none)
  let deflt := lookupKey entries defSel
  let rest := eraseKey entries defSel
  let translated : List (PersonKindSelector × PersonQualified) :=
    match s.kind_translator with
    | some tr => rest.map (fun kv => (tr kv.1, kv.2))
    | none => rest
  let sorted :=
    stableSort (fun a b => a.1.key < b.1.key) translated
  let subs := sorted.map (fun kv =>
    (s.const_access_generator (unwrapSlot (d.getSel kv.1) d.junk),
     s.access_generator (unwrapSlot (d.getSel kv.1) d.junk), kv.2))
  (gen, .Node deflt subs s.type_name)

/-- Source `Qualifier::validate`: try the supported sets in declaration
order; on the first fully covered set collapse the bucket into a single
`(gen, Node)` pair, otherwise return the bucket members unaltered. -/
def validate {T : Type} [DecidableEq T] (d : Dim T)
    (gen : PersonKindSelector)
    (entries : List (PersonKindSelector × PersonQualified)) :
    List (PersonKindSelector × PersonQualified) :=
  match d.sets.find? (coversSet d gen entries) with
  | some s => [buildNode d gen entries s]
  | none => entries

/-- One step of the `grouping.entry(gen).or_default().insert(k.0, k.1)`
build of `Qualifier::qualify`: insert the entry into the bucket keyed by
`g`, appending a new bucket when `g` is new (first-insertion order models
the hash map's iteration order). -/
def addToBuckets (bs : List (PersonKindSelector ×
      List (PersonKindSelector × PersonQualified)))
    (g : PersonKindSelector) (kv : PersonKindSelector × PersonQualified) :
    List (PersonKindSelector × List (PersonKindSelector × PersonQualified)) :=
  match bs with
  | [] => [(g, [kv])]
  | (g', l) :: rest =>
    if g' = g then (g', insertKey l kv.1 kv.2) :: rest
    else (g', l) :: addToBuckets rest g kv

/-- Bucket partition of `Qualifier::qualify`: entries grouped by the
selector with this dimension wildcarded. -/
def partitionByGen {T : Type} (d : Dim T)
    (subs : List (PersonKindSelector × PersonQualified)) :
    List (PersonKindSelector ×
      List (PersonKindSelector × PersonQualified)) :=
  subs.foldl (fun bs kv => addToBuckets bs (d.setSel kv.1 none) kv) []

/-- Source `Qualifier::qualify`: partition the entries into buckets keyed by
the selector with this dimension wildcarded, and validate every bucket. -/
def qualifyDim {T : Type} [DecidableEq T] (d : Dim T)
    (subs : List (PersonKindSelector × PersonQualified)) :
    List (PersonKindSelector × PersonQualified) :=
  (partitionByGen d subs).flatMap (fun gl => validate d gl.1 gl.2)

/-- Rust `{:?}` (Debug) rendering of a string: quoted, with backslashes and
quotes escaped. -/
def rustDbgStr (s : String) : String :=
  "\"" ++ strReplace (strReplace s "\\" "\\\\") "\"" "\\\"" ++ "\""

/-- Marker standing in for the `panic!` calls inside some accessor-name
generators (unreachable for the members of the matched sets). -/
def panicStr : String := "<panic>"

/-- Supported sets for the tone dimension, source
`<(Tone, Option<Tone>) as Qualifier>::supported_sets`, in declaration
order: full tone-pair set (with the normalization rule that folds a lone
tone into the same-tone-twice pair), reduced pair set, single-tone set. -/
def toneSets : List (QualifierSet (Tone × Option Tone)) :=
  [ { set := Tone.ALL.flatMap (fun t =>
        Tone.ALL.map (fun s => (t, if t = s then none else some s)))
      type_name := "TonePair"
      const_access_generator := fun ab =>
        let b := ab.2.getD ab.1  -- Rust `b_opt.unwrap()`; `none` is
                                 -- unreachable after the normalization rule
        "tone_pair(TonePair\x7bleft: Tone::" ++ ab.1.dbg
          ++ ", right: Tone::" ++ b.dbg ++ " \x7d)"
      access_generator := fun ab =>
        let b := ab.2.getD ab.1
        if ab.1 = b then "tone(Tone::" ++ ab.1.dbg ++ ")"
        else "tone((Tone::" ++ ab.1.dbg ++ ", Tone::" ++ b.dbg ++ "))"
      kind_translator := some (fun sel =>
        match sel.tone with
        | some (some m) =>
          if m.2 = none then { sel with tone := some (some (m.1, some m.1)) }
          else sel
        | _ => sel) },
    { set := Tone.ALL.flatMap (fun t =>
        (Tone.ALL.filter (fun s => t.idx < s.idx)).map (fun s => (t, some s)))
      type_name := "TonePairReduced"
      const_access_generator := fun ab =>
        match ab.2 with
        | some b =>
          "tone_pair(TonePair\x7bleft: Tone::" ++ ab.1.dbg
            ++ ", right: Tone::" ++ b.dbg ++ " \x7d)"
        | none =>
          "tone_pair(TonePair\x7bleft: Tone::" ++ ab.1.dbg
            ++ ", right: Tone::" ++ ab.1.dbg ++ " \x7d)"
      access_generator := fun ab =>
        match ab.2 with
        | some b =>
          if ab.1 = b then "tone(Tone::" ++ ab.1.dbg ++ ")"
          else "tone((Tone::" ++ ab.1.dbg ++ ", Tone::" ++ b.dbg ++ "))"
        | none => "tone(Tone::" ++ ab.1.dbg ++ ")"
      kind_translator := none },
    { set := Tone.ALL.map (fun t => (t, none))
      type_name := "Tone"
      const_access_generator := fun ab => "tone(Tone::" ++ ab.1.dbg ++ ")"
      access_generator := fun ab => "tone(Tone::" ++ ab.1.dbg ++ ")"
      kind_translator := none } ]

/-- The tone dimension (`sel.tone` slot), innermost level. -/
def toneDim : Dim (Tone × Option Tone) where
  getSel := fun s => s.tone
  setSel := fun s v => { s with tone := v }
  sets := toneSets
  junk := (Tone.Light, none)

/-- Source `impl From<(Gender, Gender)> for Pair`, for the `pseudo_one`
set. -/
def pairOfGenders : Gender → Gender → Pair
  | .Male, .Male => .Males
  | .Male, .Female => .Mixed
  | .Female, .Male => .Mixed
  | .Female, .Female => .Females

/-- Supported sets for the people dimension, source
`<(OneOrTwo, Option<OneOrTwo>) as Qualifier>::supported_sets`, in
declaration order: all 25 parent/child combinations, all 5 single-level
values, pairs only, singles only, same-gender pairs read as singles. -/
def peopleSets : List (QualifierSet (OneOrTwo × Option OneOrTwo)) :=
  [ { set := OneOrTwo.ALL.flatMap (fun t =>
        OneOrTwo.ALL.map (fun s => (t, some s)))
      type_name := "Family"
      const_access_generator := fun ab =>
        let b := (ab.2.getD ab.1).fancy_full_source  -- Rust `unwrap`
        "family(Family\x7bparents: " ++ ab.1.fancy_full_source
          ++ ", children: " ++ b ++ " \x7d)"
      access_generator := fun ab =>
        let b := (ab.2.getD ab.1).fancy_source
        "gender((" ++ ab.1.fancy_source ++ ", " ++ b ++ "))"
      kind_translator := none },
    { set := OneOrTwo.ALL.map (fun t => (t, none))
      type_name := "OneOrTwo"
      -- the Rust generators format an already-built `String` with `{:?}`,
      -- so the emitted name carries literal quotes
      const_access_generator := fun ab =>
        "one_or_more(" ++ rustDbgStr ab.1.fancy_full_source ++ ")"
      access_generator := fun ab =>
        "gender(" ++ rustDbgStr ab.1.fancy_source ++ ")"
      kind_translator := none },
    { set := Pair.ALL.map (fun t => (OneOrTwo.Two t, none))
      type_name := "Pair"
      const_access_generator := fun ab =>
        match ab.1 with
        | .Two p => "pair(Pair::" ++ p.dbg ++ ")"
        | .One _ => panicStr  -- Rust `panic!` on a single person here
      access_generator := fun ab =>
        match ab.1 with
        | .Two p => "gender(Pair::" ++ p.dbg ++ ")"
        | .One _ => panicStr
      kind_translator := none },
    { set := Gender.ALL.map (fun t => (OneOrTwo.One t, none))
      type_name := "Gender"
      const_access_generator := fun ab =>
        match ab.1 with
        | .One g => "gender(Gender::" ++ g.dbg ++ ")"
        | .Two _ => panicStr
      access_generator := fun ab =>
        match ab.1 with
        | .One g => "gender(Gender::" ++ g.dbg ++ ")"
        | .Two _ => panicStr
      kind_translator := none },
    { set := Gender.ALL.map (fun t => (OneOrTwo.Two (pairOfGenders t t), none))
      type_name := "Gender"
      const_access_generator := fun ab =>
        match ab.1 with
        | .Two .Males => "gender(Gender::Male)"
        | .Two .Females => "gender(Gender::Female)"
        | _ => panicStr
      access_generator := fun ab =>
        match ab.1 with
        | .Two .Males => "gender(Gender::Male)"
        | .Two .Females => "gender(Gender::Female)"
        | _ => panicStr
      kind_translator := none } ]

/-- The people dimension (`sel.people` slot), middle level. -/
def peopleDim : Dim (OneOrTwo × Option OneOrTwo) where
  getSel := fun s => s.people
  setSel := fun s v => { s with people := v }
  sets := peopleSets
  junk := (OneOrTwo.One .Male, none)

/-- Supported sets for the hair dimension, source
`<Hair as Qualifier>::supported_sets`: the single set of all six hair
values. -/
def hairSets : List (QualifierSet Hair) :=
  [ { set := Hair.ALL
      type_name := "Hair"
      const_access_generator := fun h => "hair(Hair::" ++ h.dbg ++ ")"
      access_generator := fun h => "hair(Hair::" ++ h.dbg ++ ")"
      kind_translator := none } ]

/-- The hair dimension (`sel.hair` slot), outermost level. -/
def hairDim : Dim Hair where
  getSel := fun s => s.hair
  setSel := fun s v => { s with hair := v }
  sets := hairSets
  junk := Hair.Beard

/-- Variant map of a `PersonEmoji`, modelling
`HashMap<PersonKind, PersonVariant>`. -/
abbrev VarMap := List (PersonKind × PersonVariant)

/-- Hair slot values enumerated by `PersonKindGroup::next_iter` for
`Self::All`: `once(None).chain(Hair::ALL.map(Some))`. -/
def hairOptions : List (Option Hair) := none :: Hair.ALL.map some

/-- People slot values enumerated by `PersonKindGroup::next_iter` for
`Self::Hair(h)`. -/
def peopleOptions : List (Option (OneOrTwo × Option OneOrTwo)) :=
  none :: OneOrTwo.ALL.flatMap (fun p =>
    (none :: OneOrTwo.ALL.map some).map (fun sec => some (p, sec)))

/-- Tone slot values enumerated by `PersonKindGroup::next_iter` for
`Self::People(h, p)`. -/
def toneOptions : List (Option (Tone × Option Tone)) :=
  none :: Tone.ALL.flatMap (fun t =>
    (none :: Tone.ALL.map some).map (fun sec => some (t, sec)))

/-- Leaf collection of `PersonEmoji::qualify` for the `Tone` leaf groups of
`People(h, p)`: a leaf contributes `(k.into(), k.into())` when the variant
exists, nothing otherwise (`next_iter` / `Err(k)` case). -/
def leafListTone (V : VarMap) (h : Option Hair)
    (p : Option (OneOrTwo × Option OneOrTwo)) :
    List (PersonKindSelector × PersonQualified) :=
  toneOptions.flatMap (fun t =>
    let k : PersonKind := ⟨h, p, t⟩
    if containsKey V k then
      [(PersonKindSelector.ofKind k, PersonQualified.Leaf k)]
    else [])

/-- Source `PersonEmoji::qualify` at group `People(h, p)`: the collected
leaf list is qualified at the tone dimension
(`PersonKindGroup::qualify`, `Self::People` arm). -/
def qualifyTone (V : VarMap) (h : Option Hair)
    (p : Option (OneOrTwo × Option OneOrTwo)) :
    List (PersonKindSelector × PersonQualified) :=
  qualifyDim toneDim (leafListTone V h p)

/-- Source `PersonEmoji::qualify` at group `Hair(h)`: recurse over the
`People(h, p)` sub-groups and qualify at the people dimension
(`PersonKindGroup::qualify`, `Self::Hair` arm). -/
def qualifyPeople (V : VarMap) (h : Option Hair) :
    List (PersonKindSelector × PersonQualified) :=
  qualifyDim peopleDim (peopleOptions.flatMap (fun p => qualifyTone V h p))

/-- Source `PersonEmoji::qualify` at group `All`: recurse over the
`Hair(h)` sub-groups and qualify at the hair dimension
(`PersonKindGroup::qualify`, `Self::All` arm). -/
def qualifyAll (V : VarMap) : List (PersonKindSelector × PersonQualified) :=
  qualifyDim hairDim (hairOptions.flatMap (fun h => qualifyPeople V h))

/-- Space-separated word splitter on character lists (second argument is
the reversed current word), dropping empty words. -/
def splitWordsCh : List Char → List Char → List (List Char)
  | [], acc => if acc = [] then [] else [acc.reverse]
  | c :: rest, acc =>
    if c = ' ' then
      if acc = [] then splitWordsCh rest []
      else acc.reverse :: splitWordsCh rest []
    else splitWordsCh rest (c :: acc)

/-- Joins words with underscores. -/
def joinUnderscore : List (List Char) → List Char
  | [] => []
  | [w] => w
  | w :: rest => w ++ '_' :: joinUnderscore rest

/-- Modelled from the spec: `generate_constant` is not under `src/` (only
its callers are).  Per the spec, identifiers are stable constant names
derived from the human-readable name; modelled as the uppercase
underscore-separated form of the alphanumeric words. -/
def generate_constant (s : String) : String :=
  let cleaned := s.toList.map (fun c => if c.isAlphanum then c.toUpper else ' ')
  let words := splitWordsCh cleaned []
  String.mk (joinUnderscore words)

/-- Family record, source `PersonEmoji` in people.rs.  `grouping` is the
optional qualified tree, absent until finalization. -/
structure PersonEmoji where
  identifier : String
  fancy_name : String
  grouping : Option PersonQualified
  variants : VarMap

/-- Source `PersonEmoji::new`. -/
def PersonEmoji.new (fancy_name : String) : PersonEmoji :=
  ⟨generate_constant fancy_name, fancy_name, none, []⟩

/-- Source `PersonEmoji::scrub`: qualify all variants from group `All` and
turn every resulting (selector, tree) pair into one output record whose
identifier is disambiguated by `adapt_identifier` and whose variant map is
the input map restricted to the selector. -/
def PersonEmoji.scrub (e : PersonEmoji) : List PersonEmoji :=
  (qualifyAll e.variants).map (fun cg =>
    let new_name := cg.1.adapt_identifier e.identifier
    { identifier := generate_constant new_name
      fancy_name := e.fancy_name
      grouping := some cg.2
      variants := e.variants.filter (fun kv => cg.1.selects kv.1) })

/-- Stand-in payload for the Rust indexing panic `self.variants[&kind]`
(unreachable for finalized records). -/
def junkVariant : PersonVariant := ⟨"", "", ⟨0, 0⟩⟩

/-- Source `ToSourceCode::full_emoji_list` for `PersonEmoji`: `none` models
the panic "PersonEmoji must be scrubbed before it can be rendered!" on an
un-finalized record; otherwise every accessor triple with the variant's
grapheme. -/
def PersonEmoji.full_emoji_list (e : PersonEmoji) :
    Option (List (String × String × String)) :=
  e.grouping.map (fun g =>
    (g.to_accessor_n_kind e.identifier).map (fun t =>
      (t.1, t.2.1, ((lookupKey e.variants t.2.2).getD junkVariant).grapheme)))

/-- One step of the `fold` of `PersonEmoji::default_variants`: push on
equal specificity, restart on strictly higher specificity, drop
otherwise. -/
def mgStep (vec : List (String × String × PersonKind))
    (t : String × String × PersonKind) :
    List (String × String × PersonKind) :=
  match vec with
  | [] => [t]
  | v0 :: _ =>
    if v0.2.2.default_level = t.2.2.default_level then vec ++ [t]
    else if v0.2.2.default_level < t.2.2.default_level then [t]
    else vec

/-- The `fold` of `PersonEmoji::default_variants` collecting the triples of
maximal `default_level` ("most generic") in traversal order. -/
def mostGeneral (l : List (String × String × PersonKind)) :
    List (String × String × PersonKind) :=
  l.foldl mgStep []

/-- Strict form of the derived lexicographic `Ord` of
`(String, String, PersonKind)` used by `most_general.sort()`. -/
def tripleLt (a b : String × String × PersonKind) : Bool :=
  a.1 < b.1 ∨ (a.1 = b.1 ∧ (a.2.1 < b.2.1
    ∨ (a.2.1 = b.2.1 ∧ a.2.2.key < b.2.2.key)))

/-- Rust `Vec::dedup`: removes consecutive duplicates. -/
def dedupAdj {α : Type} [DecidableEq α] : List α → List α
  | [] => []
  | [a] => [a]
  | a :: b :: rest =>
    if a = b then dedupAdj (b :: rest) else a :: dedupAdj (b :: rest)

/-- Kind-level stage of `PersonEmoji::default_variants`: the most generic
accessor triples (maximal `default_level`), sorted and deduplicated;
`none` models the un-finalized panic. -/
def PersonEmoji.default_variant_kinds (e : PersonEmoji) :
    Option (List (String × String × PersonKind)) :=
  e.grouping.map (fun g =>
    dedupAdj (stableSort tripleLt
      (mostGeneral (g.to_accessor_n_kind e.identifier))))

/-- Source `PersonEmoji::default_variants`: the most generic accessor
triples with their variant payloads. -/
def PersonEmoji.default_variants (e : PersonEmoji) :
    Option (List (String × String × PersonVariant)) :=
  e.default_variant_kinds.map (fun l =>
    l.map (fun t =>
      (t.1, t.2.1, (lookupKey e.variants t.2.2).getD junkVariant)))

/-- Rust `Display` of a `Version` ("{}.{}"). -/
def Version.display (v : Version) : String :=
  toString v.major ++ "." ++ toString v.minor

/-- Rust derived `Debug` of a `Version`. -/
def Version.dbg (v : Version) : String :=
  "Version(" ++ toString v.major ++ ", " ++ toString v.minor ++ ")"

/-- Rust `format!("U+{:04X}", c as u32)`: uppercase hexadecimal, at least
four digits. -/
def hexUpper4 (n : Nat) : String :=
  let ds := (Nat.toDigits 16 n).map Char.toUpper
  let pad := List.replicate (4 - ds.length) '0'
  String.mk (pad ++ ds)

/-- Source `emoji_render_text` (emoji.rs): the grapheme followed by its
code points. -/
def emoji_render_text (grapheme : String) : String :=
  grapheme ++ " (`"
    ++ String.intercalate " "
      (grapheme.toList.map (fun c => "U+" ++ hexUpper4 c.toNat))
    ++ "`)"

/-- Source `emoji_render_single_example` (emoji.rs). -/
def emoji_render_single_example (accessor grapheme : String) : String :=
  "#[doc=\"println!(\\\"\x7b\x7d\\\", " ++ accessor ++ "); // "
    ++ emoji_render_text grapheme
    ++ "\"] #[doc=\"# assert_eq!(" ++ accessor
    ++ ".to_string().as_str(), \\\"" ++ grapheme ++ "\\\");\"]"

/-- Source `emoji_render_example_section` (emoji.rs). -/
def emoji_render_example_section (content identifier : String) : String :=
  "#[doc=\"# Examples\"] #[doc=\"```\"]\n#[doc=\"use emojic::flat::"
    ++ identifier
    ++ ";\"]#[doc=\"use emojic::Tone;\"]#[doc=\"use emojic::Gender;\"]"
    ++ "#[doc=\"use emojic::Hair;\"]#[doc=\"use emojic::Pair;\"] #[doc=\"\"]\n"
    ++ content ++ "\n#[doc=\"```\"]"

mutual

/-- Source `PersonQualified::to_type_n_value` (with the node and leaf
variants): the constructor projection, emitting (type, constructor
expression, docs).  `none` models the panics: a leaf kind missing from the
variant map (`&variants[&self.leaf]`), an empty node (`sub_types[0]`), and
the sibling-type assertion `assert!(sub_types.iter().all(..))`. -/
def PersonQualified.to_type_n_value :
    PersonQualified → String → VarMap → Option (String × String × String)
  | .Leaf k, accessor, variants =>
    match lookupKey variants k with
    | none => none
    | some v =>
      some ("Emoji",
        "Emoji::new(" ++ rustDbgStr v.full_name ++ ", " ++ v.since.dbg
          ++ ",\"" ++ v.grapheme ++ "\")",
        emoji_render_single_example accessor v.grapheme)
  | .Node none subs type_name, accessor, variants =>
    match subsTypeNValue subs accessor variants with
    | none => none
    | some (sub_types, subs_value, docs) =>
      match sub_types with
      | [] => none
      | st0 :: restTys =>
        if restTys.all (fun st => st = st0) then
          some ("WithNoDef<" ++ type_name ++ "," ++ st0 ++ ">",
            "WithNoDef::new(\n\t&[\n\t\t" ++ subs_value ++ "])",
            docs)
        else none
  | .Node (some d) subs type_name, accessor, variants =>
    match d.to_type_n_value accessor variants with
    | none => none
    | some (def_type, def_value, def_doc) =>
      match subsTypeNValue subs accessor variants with
      | none => none
      | some (sub_types, subs_value, docs) =>
        if (def_type :: sub_types).all (fun st => st = def_type) then
          some ("With<" ++ type_name ++ "," ++ def_type ++ ">",
            "With::new(" ++ def_value ++ ", \n\t&[\n\t\t" ++ subs_value
              ++ "])",
            def_doc ++ docs)
        else none

/-- Constructor projection over a sub-tree list: the collected sub types,
the concatenated constructor expressions (each followed by ",\n\t") and
the concatenated docs. -/
def subsTypeNValue :
    List (String × String × PersonQualified) → String → VarMap →
      Option (List String × String × String)
  | [], _, _ => some ([], "", "")
  | (_, pub_acc, s) :: rest, accessor, variants =>
    match s.to_type_n_value (accessor ++ "." ++ pub_acc) variants with
    | none => none
    | some (ty, value, doc) =>
      match subsTypeNValue rest accessor variants with
      | none => none
      | some (tys, values, docs) =>
        some (ty :: tys, value ++ ",\n\t" ++ values, doc ++ docs)

end

/-- Comparison of the derived `Ord` of `Version` (lexicographic). -/
def versionLe (a b : Version) : Bool :=
  a.major < b.major ∨ (a.major = b.major ∧ a.minor ≤ b.minor)

/-- Source `PersonEmoji::since`: minimal introduction version over all
variants; `none` models the `unwrap` panic on an empty map. -/
def PersonEmoji.since (e : PersonEmoji) : Option Version :=
  match e.variants with
  | [] => none
  | kv :: rest =>
    some (rest.foldl
      (fun m x => if versionLe m x.2.since then m else x.2.since)
      kv.2.since)

/-- Modelled from the spec: `PersonEmoji`'s `graphemes` method is not under
`src/` (the trait declares it; this impl is missing).  Per the spec it
returns the default grapheme(s), "joined if multiple defaults exist";
modelled as their concatenation. -/
def PersonEmoji.graphemes (e : PersonEmoji) : String :=
  String.intercalate ""
    (((e.default_variants).getD []).map (fun t => t.2.2.grapheme))

/-- Source `ToSourceCode::to_source_code` for `PersonEmoji`: `none` models
the panic on an un-finalized record (and the inner projection panics). -/
def PersonEmoji.to_source_code (e : PersonEmoji) : Option String :=
  match e.grouping with
  | none => none
  | some group =>
    match group.to_type_n_value e.identifier e.variants with
    | none => none
    | some (ty, value, docs) =>
      some ("#[doc=\"" ++ e.fancy_name ++ " " ++ e.graphemes
        ++ "\"]#[doc=\"\"]#[doc=\"Since E"
        ++ ((e.since).getD ⟨0, 0⟩).display ++ "\"]#[doc=\"\"] "
        ++ emoji_render_example_section docs e.identifier
        ++ "\npub static " ++ e.identifier ++ ": " ++ ty ++ " = " ++ value
        ++ ";\n")

/-- One variant-map insertion guarded by the duplicate check
`debug_assert!(res.is_none(), ...)` shared by the merge code paths of
`Subgroup::sort` and `Subgroup::append_person`.  The boolean is true when
the key was already present: the assertion fires (fatal in builds with
debug assertions); the payload is overwritten either way. -/
def insertChecked (m : VarMap) (k : PersonKind) (v : PersonVariant) :
    VarMap × Bool :=
  (insertKey m k v, containsKey m k)

/-- First merge step of `Subgroup::sort`: fold a standalone emoji in as the
all-default kind (`p.variants.insert(Default::default(), e.into())`). -/
def foldStandalone (p : VarMap) (e : PersonVariant) : VarMap × Bool :=
  insertChecked p PersonKind.default e

/-- Second merge step of `Subgroup::sort`: the `for (k, v) in old` loop
inserting one person's variants into another's; the flag records whether
any insertion hit an existing key. -/
def mergeVariants (dst src : VarMap) : VarMap × Bool :=
  src.foldl (fun acc kv =>
    let r := insertChecked acc.1 kv.1 kv.2
    (r.1, acc.2 || r.2)) (dst, false)

/-- Variant insertion of `Subgroup::append_person`. -/
def appendPersonVariant (p : VarMap) (k : PersonKind) (v : PersonVariant) :
    VarMap × Bool :=
  insertChecked p k v

/-- Shared variant payload builder for the concrete test records. -/
def mkVar (n : String) : PersonVariant := ⟨n, n, ⟨1, 0⟩⟩

/-- Scenario record for claim C4: a concept with exactly two of the six
hair values and no hair-absent entry. -/
def exHair : PersonEmoji :=
  { identifier := "NINJA", fancy_name := "ninja", grouping := none,
    variants := [(⟨some .Beard, none, none⟩, mkVar "b"),
      (⟨some .Blond, none, none⟩, mkVar "l")] }

/-- Scenario record for claim C3: a two-person concept present for all
three `Pair` values, each crossed with all 25 tone-pair combinations
(same-tone combinations carry no distinct second tone). -/
def exPairs : PersonEmoji :=
  { identifier := "COUPLE", fancy_name := "couple", grouping := none,
    variants := Pair.ALL.flatMap (fun p =>
      Tone.ALL.flatMap (fun t =>
        Tone.ALL.map (fun s =>
          (⟨none, some (.Two p, none), some (t, if t = s then none else some s)⟩,
            mkVar (p.dbg ++ t.dbg ++ s.dbg))))) }

/-- Red-haired single-person kind used by the mixed record below. -/
def kOne (g : Gender) (t : Tone) : PersonKind :=
  ⟨some .Red, some (.One g, none), some (t, none)⟩

/-- Stray red-haired two-person kind used by the mixed record below. -/
def kStray : PersonKind := ⟨some .Red, some (.Two .Males, none), some (.Light, none)⟩

/-- Mixed record refuting claims C1 and C10 as stated: complete single-tone
sets for both genders (which qualify into a gender node with a wildcard
selector) plus one stray pair kind whose tone set is incomplete. -/
def exMixed : PersonEmoji :=
  { identifier := "X", fancy_name := "x", grouping := none,
    variants := (Tone.ALL.map (fun t => (kOne .Male t, mkVar "m")))
      ++ (Tone.ALL.map (fun t => (kOne .Female t, mkVar "f")))
      ++ [(kStray, mkVar "p")] }

/-- Minimal single-variant record used by witnesses. -/
def exSingle : PersonEmoji :=
  { identifier := "WAVE", fancy_name := "wave", grouping := none,
    variants := [(⟨none, none, none⟩, mkVar "w")] }

/-- The unique finalization result of `exSingle`. -/
def exSingleScrubbed : PersonEmoji :=
  { identifier := "WAVE", fancy_name := "wave",
    grouping := some (.Leaf ⟨none, none, none⟩),
    variants := [(⟨none, none, none⟩, mkVar "w")] }

/-- Shape summary of one tree node: whether it has a default branch, its
dimension type name, and its number of sub-entries. -/
structure NodeShape where
  hasDef : Bool
  ty : String
  width : Nat
deriving DecidableEq, Repr

/-- Shape of the root of a tree (`none` for a leaf). -/
def topShape : PersonQualified → Option NodeShape
  | .Node d subs ty => some ⟨d.isSome, ty, subs.length⟩
  | .Leaf _ => none

/-- Shapes of the immediate sub-trees of a tree root. -/
def subShapes : PersonQualified → List (Option NodeShape)
  | .Node _ subs _ => subs.map (fun s => topShape s.2.2)
  | .Leaf _ => []

/-- Kinds of the accessor triples of a tree (the `to_accessor_n_kind`
projection forgetting the accessor strings). -/
def kindsOf (l : List (String × String × PersonKind)) : List PersonKind :=
  l.map (fun t => t.2.2)

/-- Kinds enumerated by the `Tone` leaf groups of `People(h, p)` that are
present in the variant map, in enumeration order. -/
def kindsListTone (V : VarMap) (h : Option Hair)
    (p : Option (OneOrTwo × Option OneOrTwo)) : List PersonKind :=
  toneOptions.flatMap (fun t =>
    if containsKey V ⟨h, p, t⟩ then [(⟨h, p, t⟩ : PersonKind)] else [])

/-- All kinds enumerated by `PersonEmoji::qualify` from group `All` that
are present in the variant map. -/
def allLeafKinds (V : VarMap) : List PersonKind :=
  hairOptions.flatMap (fun h =>
    peopleOptions.flatMap (fun p => kindsListTone V h p))

/-- Concatenation of all buckets of a partition. -/
def flattenBuckets (bs : List (PersonKindSelector ×
    List (PersonKindSelector × PersonQualified))) :
    List (PersonKindSelector × PersonQualified) :=
  bs.flatMap (fun gl => gl.2)

/-- Per-entry invariant carried through the qualification pipeline: the
tree's reachable kinds are pairwise distinct, and every reachable kind is
present in the variant map and selected by the entry's selector. -/
def GoodEntry (V : VarMap) (e : PersonKindSelector × PersonQualified) :
    Prop :=
  e.2.leaves.Nodup
    ∧ ∀ m ∈ e.2.leaves, containsKey V m = true ∧ e.1.selects m = true

/-- Laws connecting a dimension's slot access to selection; they hold for
the three dimensions of the engine. -/
structure DimLaws (T : Type) [DecidableEq T] (d : Dim T) : Prop where
  set_set : ∀ s v w, d.setSel (d.setSel s v) w = d.setSel s w
  get_set : ∀ s v, d.getSel (d.setSel s v) = v
  set_get : ∀ s, d.setSel s (d.getSel s) = s
  mono : ∀ s k, s.selects k = true → (d.setSel s none).selects k = true
  val2 : ∀ s x y k, (d.setSel s (some x)).selects k = true →
    (d.setSel s (some y)).selects k = true → x = y

/-- Record with a preset two-leaf tree of distinct specificities, for the
claim C5 witness. -/
def exLevels : PersonEmoji :=
  { identifier := "T", fancy_name := "t",
    grouping := some (.Node none
      [("a", "a", .Leaf ⟨none, none, none⟩),
       ("b", "b", .Leaf ⟨some .Beard, none, none⟩)] "X"),
    variants := [] }

/-- Modelled from the spec: the §4.2 validation algorithm, written as
direct recursion over the dimension's `QualifierSet`s in priority
(declaration) order.  At the first set in which every value has a
corresponding bucket member: remove the optional default-level member (the
entry whose selector slot for this dimension is the absent/default value)
to serve as the node's default branch, normalize, sort the remaining
members by their selector, build the accessor list, and return exactly one
(generalized selector, node) pair.  If no set matches, return the bucket's
members unaltered, signaling unqualified to the caller. -/
def validateSpecLoop {T : Type} [DecidableEq T] (d : Dim T)
    (gen : PersonKindSelector)
    (entries : List (PersonKindSelector × PersonQualified)) :
    List (QualifierSet T) → List (PersonKindSelector × PersonQualified)
  | [] => entries
  | s :: rest =>
    if s.set.all (fun t =>
        entries.any (fun kv => kv.1 = d.setSel gen (some (some t)))) then
      let defSel := d.setSel gen (some none)
      let deflt := (entries.find? (fun kv => kv.1 = defSel)).map
        (fun kv => kv.2)
      let remaining := entries.filter (fun kv => ¬ kv.1 = defSel)
      let normalized := match s.kind_translator with
        | some tr => remaining.map (fun kv => (tr kv.1, kv.2))
        | none => remaining
      let sortedSubs :=
        stableSort (fun a b => a.1.key < b.1.key) normalized
      [(gen, PersonQualified.Node deflt
        (sortedSubs.map (fun kv =>
          (s.const_access_generator (unwrapSlot (d.getSel kv.1) d.junk),
           s.access_generator (unwrapSlot (d.getSel kv.1) d.junk),
           kv.2))) s.type_name)]
    else validateSpecLoop d gen entries rest

/-- Modelled from the spec: per-bucket validation tries the dimension's
sets in declaration order via `validateSpecLoop`. -/
def validateSpec {T : Type} [DecidableEq T] (d : Dim T)
    (gen : PersonKindSelector)
    (entries : List (PersonKindSelector × PersonQualified)) :
    List (PersonKindSelector × PersonQualified) :=
  validateSpecLoop d gen entries d.sets

/-- The remaining bucket members passed to the sort inside
`Qualifier::validate`: the bucket without its default-level member, with
the set's optional normalization rule applied. -/
def translatedEntries {T : Type} (d : Dim T) (gen : PersonKindSelector)
    (s : QualifierSet T)
    (entries : List (PersonKindSelector × PersonQualified)) :
    List (PersonKindSelector × PersonQualified) :=
  match s.kind_translator with
  | some tr =>
    (eraseKey entries (d.setSel gen (some none))).map
      (fun kv => (tr kv.1, kv.2))
  | none => eraseKey entries (d.setSel gen (some none))

/-- Strict lexicographic order on character lists, by code point; models
the derived `Ord` on Rust strings (coincides with byte order on the ASCII
identifiers the generator sorts). -/
def charsLt : List Char → List Char → Bool
  | [], [] => false
  | [], _ :: _ => true
  | _ :: _, [] => false
  | a :: as, b :: bs =>
    if a = b then charsLt as bs else a < b

/-- Strict order on strings, models `String::cmp` in `sort`. -/
def strLt (a b : String) : Bool :=
  charsLt a.data b.data

/-- The constants list rebuilt at the end of `Subgroup::sort`: the map
keys, sorted (`Vec::sort`) and deduplicated (`Vec::dedup`). -/
def constantsOf (keys : List String) : List String :=
  dedupAdj (stableSort strLt keys)

/-- A fully covered tone bucket (all five single-tone members), for the
claim C9 witness. -/
def exBucketA : List (PersonKindSelector × PersonQualified) :=
  Tone.ALL.map (fun t =>
    (⟨none, none, some (some (t, none))⟩,
     PersonQualified.Leaf ⟨none, none, some (t, none)⟩))

/-- The same bucket in the reverse insertion order. -/
def exBucketB : List (PersonKindSelector × PersonQualified) :=
  exBucketA.reverse

section Theorems

/-- A `flatMap` may skip the elements known to produce nothing. -/
theorem flatMap_filter_eq {α β : Type} (l : List α) (f : α → List β)
    (p : α → Bool) (h : ∀ x ∈ l, p x = false → f x = []) :
    l.flatMap f = (l.filter p).flatMap f := by
  induction l with
  | nil => rfl
  | cons a t ih =>
    have ht := ih (fun x hx hp => h x (List.mem_cons_of_mem _ hx) hp)
    cases hp : p a with
    | true => simp [List.flatMap_cons, List.filter_cons, hp, ht]
    | false =>
      have hfa := h a (List.mem_cons_self a t) hp
      simp [List.flatMap_cons, List.filter_cons, hp, hfa, ht]

/-- Membership characterization of `containsKey`. -/
theorem containsKey_iff {α β : Type} [DecidableEq α] {m : List (α × β)}
    {k : α} : containsKey m k = true ↔ ∃ kv ∈ m, kv.1 = k := by
  simp [containsKey, List.any_eq_true]

/-- An empty entry list is qualified to nothing. -/
theorem qualifyDim_nil {T : Type} [DecidableEq T] (d : Dim T) :
    qualifyDim d [] = [] := rfl

/-- A `People(h, p)` group without matching variants collects no leaves. -/
theorem leafListTone_eq_nil {V : VarMap} {h : Option Hair}
    {p : Option (OneOrTwo × Option OneOrTwo)}
    (hnone : ∀ kv ∈ V, ¬(kv.1.hair = h ∧ kv.1.people = p)) :
    leafListTone V h p = [] := by
  unfold leafListTone
  rw [List.flatMap_eq_nil_iff]
  intro t _
  have : containsKey V ⟨h, p, t⟩ = false := by
    cases hc : containsKey V ⟨h, p, t⟩ with
    | false => rfl
    | true =>
      obtain ⟨kv, hkv, hk⟩ := containsKey_iff.mp hc
      exact absurd ⟨by rw [hk], by rw [hk]⟩ (hnone kv hkv)
  simp [this]

/-- A `People(h, p)` group without matching variants qualifies to
nothing. -/
theorem qualifyTone_eq_nil {V : VarMap} {h : Option Hair}
    {p : Option (OneOrTwo × Option OneOrTwo)}
    (hnone : ∀ kv ∈ V, ¬(kv.1.hair = h ∧ kv.1.people = p)) :
    qualifyTone V h p = [] := by
  unfold qualifyTone
  rw [leafListTone_eq_nil hnone]
  rfl

/-- A `Hair(h)` group without matching variants qualifies to nothing. -/
theorem qualifyPeople_eq_nil {V : VarMap} {h : Option Hair}
    (hnone : ∀ kv ∈ V, ¬ kv.1.hair = h) : qualifyPeople V h = [] := by
  unfold qualifyPeople
  have hflat : peopleOptions.flatMap (fun p => qualifyTone V h p) = [] := by
    rw [List.flatMap_eq_nil_iff]
    intro p _
    exact qualifyTone_eq_nil (fun kv hkv hand => hnone kv hkv hand.1)
  rw [hflat]
  rfl

/-- Computation form of `qualifyPeople` that skips the people-slot values
with no matching variants. -/
theorem qualifyPeople_eff (V : VarMap) (h : Option Hair) :
    qualifyPeople V h = qualifyDim peopleDim
      ((peopleOptions.filter (fun p =>
        V.any (fun kv => kv.1.hair = h ∧ kv.1.people = p))).flatMap
          (fun p => qualifyTone V h p)) := by
  unfold qualifyPeople
  congr 1
  apply flatMap_filter_eq
  intro p _ hp
  apply qualifyTone_eq_nil
  intro kv hkv hand
  have := List.any_eq_false.mp hp kv hkv
  simp only [decide_eq_true_eq] at this
  exact this hand

/-- Computation form of `qualifyAll` that skips the hair values with no
matching variants. -/
theorem qualifyAll_eff (V : VarMap) :
    qualifyAll V = qualifyDim hairDim
      ((hairOptions.filter (fun h =>
        V.any (fun kv => kv.1.hair = h))).flatMap
          (fun h => qualifyPeople V h)) := by
  unfold qualifyAll
  congr 1
  apply flatMap_filter_eq
  intro h _ hp
  apply qualifyPeople_eq_nil
  intro kv hkv
  have := List.any_eq_false.mp hp kv hkv
  simp only [decide_eq_true_eq] at this
  exact this

/-- Stable insertion produces a permutation of consing. -/
theorem insertSorted_perm {α : Type} (lt : α → α → Bool) (a : α)
    (l : List α) : (insertSorted lt a l).Perm (a :: l) := by
  induction l with
  | nil => rfl
  | cons b t ih =>
    unfold insertSorted
    cases hlt : lt b a with
    | false => simp
    | true =>
      simp only [if_pos rfl]
      exact ((ih.cons b).trans (List.Perm.swap a b t))

/-- Stable insertion sort permutes its input. -/
theorem stableSort_perm {α : Type} (lt : α → α → Bool) (l : List α) :
    (stableSort lt l).Perm l := by
  induction l with
  | nil => rfl
  | cons a t ih =>
    exact (insertSorted_perm lt a (stableSort lt t)).trans (ih.cons a)

/-- Cons unfolding of `lookupKey`. -/
theorem lookupKey_cons {α β : Type} [DecidableEq α] (a : α) (b : β)
    (t : List (α × β)) (k : α) :
    lookupKey ((a, b) :: t) k = if a = k then some b else lookupKey t k := by
  by_cases hak : a = k
  · simp [lookupKey, List.find?_cons, hak]
  · simp [lookupKey, List.find?_cons, hak]

/-- Cons unfolding of `eraseKey`. -/
theorem eraseKey_cons {α β : Type} [DecidableEq α] (a : α) (b : β)
    (t : List (α × β)) (k : α) :
    eraseKey ((a, b) :: t) k
      = if a = k then eraseKey t k else (a, b) :: eraseKey t k := by
  by_cases hak : a = k
  · simp [eraseKey, List.filter_cons, hak]
  · simp [eraseKey, List.filter_cons, hak]

/-- Cons unfolding of `containsKey`. -/
theorem containsKey_cons {α β : Type} [DecidableEq α] (a : α) (b : β)
    (t : List (α × β)) (k : α) :
    containsKey ((a, b) :: t) k
      = if a = k then true else containsKey t k := by
  by_cases hak : a = k
  · simp [containsKey, hak]
  · simp [containsKey, hak]

/-- Looking up an absent key leaves `eraseKey` inert. -/
theorem eraseKey_of_lookup_none {α β : Type} [DecidableEq α]
    {m : List (α × β)} {k : α} (h : lookupKey m k = none) :
    eraseKey m k = m := by
  induction m with
  | nil => rfl
  | cons a t ih =>
    obtain ⟨a1, a2⟩ := a
    rw [lookupKey_cons] at h
    rw [eraseKey_cons]
    by_cases hak : a1 = k
    · simp [hak] at h
    · simp only [if_neg hak]
      rw [ih (by simpa [hak] using h)]

/-- A found entry can be split off: the map is a permutation of the entry
consed onto the erasure (for maps with distinct keys). -/
theorem lookup_some_perm {α β : Type} [DecidableEq α]
    {m : List (α × β)} {k : α} {v : β}
    (hnd : (m.map Prod.fst).Nodup) (h : lookupKey m k = some v) :
    m.Perm ((k, v) :: eraseKey m k) := by
  induction m with
  | nil => simp [lookupKey] at h
  | cons a t ih =>
    obtain ⟨a1, a2⟩ := a
    rw [List.map_cons, List.nodup_cons] at hnd
    rw [lookupKey_cons] at h
    rw [eraseKey_cons]
    by_cases hak : a1 = k
    · rw [if_pos hak] at h
      rw [if_pos hak]
      have ha2 : a2 = v := by simpa using h
      have hkt : lookupKey t k = none := by
        cases hl : lookupKey t k with
        | none => rfl
        | some w =>
          exfalso
          obtain ⟨kv, hkv, hkvk⟩ : ∃ kv ∈ t, (decide (kv.1 = k)) = true := by
            unfold lookupKey at hl
            cases hf : List.find? (fun kv => decide (kv.1 = k)) t with
            | none => rw [hf] at hl; simp at hl
            | some kv =>
              have hpkv :=
                @List.find?_some _ (fun kv => decide (kv.1 = k)) kv t hf
              exact ⟨kv, List.mem_of_find?_eq_some hf, hpkv⟩
          apply hnd.1
          show a1 ∈ List.map Prod.fst t
          rw [hak]
          exact (of_decide_eq_true hkvk) ▸ List.mem_map_of_mem Prod.fst hkv
      rw [eraseKey_of_lookup_none hkt, ← hak, ← ha2]
    · rw [if_neg hak] at h
      rw [if_neg hak]
      exact ((ih hnd.2 h).cons _).trans (List.Perm.swap (k, v) (a1, a2) _)

/-- The dimension laws hold for the tone dimension. -/
theorem toneLaws : DimLaws (Tone × Option Tone) toneDim := by
  constructor
  · intro s v w; cases s; rfl
  · intro s v; cases s; rfl
  · intro s; cases s; rfl
  · intro s k h
    cases s
    simp only [toneDim, PersonKindSelector.selects, slotSelects,
      Bool.and_eq_true] at h ⊢
    exact ⟨h.1, trivial⟩
  · intro s x y k h1 h2
    cases s
    simp only [toneDim, PersonKindSelector.selects, slotSelects,
      Bool.and_eq_true, decide_eq_true_eq] at h1 h2
    exact h1.2.trans h2.2.symm

/-- The dimension laws hold for the people dimension. -/
theorem peopleLaws :
    DimLaws (OneOrTwo × Option OneOrTwo) peopleDim := by
  constructor
  · intro s v w; cases s; rfl
  · intro s v; cases s; rfl
  · intro s; cases s; rfl
  · intro s k h
    cases s
    simp only [peopleDim, PersonKindSelector.selects, slotSelects,
      Bool.and_eq_true] at h ⊢
    exact ⟨⟨h.1.1, trivial⟩, h.2⟩
  · intro s x y k h1 h2
    cases s
    simp only [peopleDim, PersonKindSelector.selects, slotSelects,
      Bool.and_eq_true, decide_eq_true_eq] at h1 h2
    exact h1.1.2.trans h2.1.2.symm

/-- The dimension laws hold for the hair dimension. -/
theorem hairLaws : DimLaws Hair hairDim := by
  constructor
  · intro s v w; cases s; rfl
  · intro s v; cases s; rfl
  · intro s; cases s; rfl
  · intro s k h
    cases s
    simp only [hairDim, PersonKindSelector.selects, slotSelects,
      Bool.and_eq_true] at h ⊢
    exact ⟨⟨trivial, h.1.2⟩, h.2⟩
  · intro s x y k h1 h2
    cases s
    simp only [hairDim, PersonKindSelector.selects, slotSelects,
      Bool.and_eq_true, decide_eq_true_eq] at h1 h2
    exact h1.1.1.trans h2.1.1.symm

/-- The selector derived from a kind selects that kind. -/
theorem selects_ofKind (k : PersonKind) :
    (PersonKindSelector.ofKind k).selects k = true := by
  cases k
  simp [PersonKindSelector.ofKind, PersonKindSelector.selects, slotSelects]

/-- Leaves of a node split into the default branch's and the
sub-entries'. -/
theorem leaves_node (deflt : Option PersonQualified)
    (subs : List (String × String × PersonQualified)) (ty : String) :
    (PersonQualified.Node deflt subs ty).leaves
      = (match deflt with | some d => d.leaves | none => []) ++ leavesSubs subs := by
  cases deflt <;> rfl

/-- Leaves of a generated sub-entry list are the trees' leaves. -/
theorem leavesSubs_map {α : Type} (l : List (α × PersonQualified))
    (f g : α × PersonQualified → String) :
    leavesSubs (l.map (fun kv => (f kv, g kv, kv.2)))
      = l.flatMap (fun kv => kv.2.leaves) := by
  induction l with
  | nil => rfl
  | cons a t ih => simp only [List.map_cons, leavesSubs, List.flatMap_cons, ih]

/-- Distinct images under a map make a pairwise-difference shape. -/
theorem pairwise_ne_of_nodup_map {α β : Type} {f : α → β} {l : List α}
    (h : (l.map f).Nodup) : l.Pairwise (fun a b => ¬ f a = f b) :=
  List.pairwise_map.mp h

/-- Congruence of `flatMap` under pointwise permutation. -/
theorem flatMap_perm_congr {α β : Type} {l : List α} {f g : α → List β}
    (h : ∀ x ∈ l, (f x).Perm (g x)) :
    (l.flatMap f).Perm (l.flatMap g) := by
  induction l with
  | nil => rfl
  | cons a t ih =>
    simp only [List.flatMap_cons]
    exact (h a (List.mem_cons_self a t)).append
      (ih fun x hx => h x (List.mem_cons_of_mem _ hx))

/-- Each bucket entry's selector is the bucket key with a `Some`-level
value at this dimension. -/
theorem bucket_key_form {T : Type} [DecidableEq T] {d : Dim T}
    (L : DimLaws T d) {gen : PersonKindSelector}
    {e : PersonKindSelector × PersonQualified}
    (hb : d.setSel e.1 none = gen) (hs : ∃ x, d.getSel e.1 = some x) :
    ∃ x, e.1 = d.setSel gen (some x) := by
  obtain ⟨x, hx⟩ := hs
  refine ⟨x, ?_⟩
  calc e.1 = d.setSel e.1 (d.getSel e.1) := (L.set_get e.1).symm
    _ = d.setSel e.1 (some x) := by rw [hx]
    _ = d.setSel (d.setSel e.1 none) (some x) := by rw [L.set_set]
    _ = d.setSel gen (some x) := by rw [hb]

/-- Central preservation properties of `Qualifier::validate` on one
bucket: every output entry keeps the pipeline invariant and is either the
collapsed `(gen, node)` pair or an untouched bucket member, and the
reachable kinds over all outputs are a permutation of those over the
inputs. -/
theorem validate_good {T : Type} [DecidableEq T] {d : Dim T}
    (L : DimLaws T d) {V : VarMap} {gen : PersonKindSelector}
    {entries : List (PersonKindSelector × PersonQualified)}
    (hkeys : (entries.map Prod.fst).Nodup)
    (hbucket : ∀ e ∈ entries, d.setSel e.1 none = gen)
    (hsome : ∀ e ∈ entries, ∃ x, d.getSel e.1 = some x)
    (hgood : ∀ e ∈ entries, GoodEntry V e) :
    (∀ o ∈ validate d gen entries,
        GoodEntry V o ∧ (o.1 = gen ∨ o ∈ entries))
    ∧ ((validate d gen entries).flatMap (fun o => o.2.leaves)).Perm
        (entries.flatMap (fun e => e.2.leaves))
    ∧ ((validate d gen entries).map Prod.fst).Nodup := by
  unfold validate
  cases hfind : d.sets.find? (coversSet d gen entries) with
  | none =>
    refine ⟨fun o ho => ⟨hgood o ho, Or.inr ho⟩, List.Perm.refl _, hkeys⟩
  | some s =>
    set defSel := d.setSel gen (some none) with hdefSel
    set rest := eraseKey entries defSel with hrest
    -- split the bucket into the optional default member and the rest
    have hsplit : entries.Perm
        ((match lookupKey entries defSel with
          | some v => [(defSel, v)]
          | none => []) ++ rest) := by
      cases hlook : lookupKey entries defSel with
      | some v => simpa using lookup_some_perm hkeys hlook
      | none => simp [hrest, eraseKey_of_lookup_none hlook]
    set E0 := (match lookupKey entries defSel with
      | some v => [(defSel, v)]
      | none => []) ++ rest with hE0def
    have hmemE0 : ∀ e ∈ E0, e ∈ entries := fun e he => hsplit.mem_iff.mpr he
    have hkeysE0 : (E0.map Prod.fst).Nodup :=
      ((hsplit.map Prod.fst).nodup_iff).mp hkeys
    -- the node built by the matched set
    unfold buildNode
    set translated : List (PersonKindSelector × PersonQualified) :=
      (match s.kind_translator with
        | some tr => rest.map (fun kv => (tr kv.1, kv.2))
        | none => rest) with htransdef
    set sorted := stableSort (fun a b => a.1.key < b.1.key) translated
      with hsorteddef
    have htl : translated.flatMap (fun kv => kv.2.leaves)
        = rest.flatMap (fun kv => kv.2.leaves) := by
      rw [htransdef]
      cases s.kind_translator with
      | some tr => rw [List.flatMap_map]
      | none => rfl
    have hsl : (sorted.flatMap (fun kv => kv.2.leaves)).Perm
        (rest.flatMap (fun kv => kv.2.leaves)) := by
      rw [← htl]
      exact List.Perm.flatMap_right _ (stableSort_perm _ _)
    have hnodeleaves :
        (PersonQualified.Node (lookupKey entries defSel)
          (sorted.map (fun kv =>
            (s.const_access_generator (unwrapSlot (d.getSel kv.1) d.junk),
             s.access_generator (unwrapSlot (d.getSel kv.1) d.junk), kv.2)))
          s.type_name).leaves.Perm
        (E0.flatMap (fun e => e.2.leaves)) := by
      rw [leaves_node]
      rw [show (sorted.map (fun kv =>
            (s.const_access_generator (unwrapSlot (d.getSel kv.1) d.junk),
             s.access_generator (unwrapSlot (d.getSel kv.1) d.junk), kv.2)))
          = (sorted.map (fun kv =>
            ((fun kv => s.const_access_generator
                (unwrapSlot (d.getSel kv.1) d.junk)) kv,
             (fun kv => s.access_generator
                (unwrapSlot (d.getSel kv.1) d.junk)) kv, kv.2))) from rfl]
      rw [leavesSubs_map]
      rw [hE0def, List.flatMap_append]
      apply List.Perm.append _ hsl
      cases lookupKey entries defSel with
      | some v => simp
      | none => simp
    -- pairwise disjointness of reachable kinds across bucket members
    have hdisj : E0.Pairwise (List.Disjoint on (fun e => e.2.leaves)) := by
      apply (pairwise_ne_of_nodup_map hkeysE0).imp_of_mem
      intro a b ha hb hne
      have haE := hmemE0 a ha
      have hbE := hmemE0 b hb
      obtain ⟨xa, hxa⟩ := bucket_key_form L (hbucket a haE) (hsome a haE)
      obtain ⟨xb, hxb⟩ := bucket_key_form L (hbucket b hbE) (hsome b hbE)
      intro m hma hmb
      have hsa := ((hgood a haE).2 m hma).2
      have hsb := ((hgood b hbE).2 m hmb).2
      rw [hxa] at hsa
      rw [hxb] at hsb
      exact hne (by rw [hxa, hxb, L.val2 gen xa xb m hsa hsb])
    have hE0nodup : (E0.flatMap (fun e => e.2.leaves)).Nodup := by
      rw [List.nodup_flatMap]
      exact ⟨fun e he => (hgood e (hmemE0 e he)).1, hdisj⟩
    refine ⟨?_, ?_, ?_⟩
    · intro o ho
      simp only [List.mem_singleton] at ho
      subst ho
      refine ⟨⟨hnodeleaves.nodup_iff.mpr hE0nodup, ?_⟩, Or.inl rfl⟩
      intro m hm
      have hmE : m ∈ E0.flatMap (fun e => e.2.leaves) :=
        hnodeleaves.mem_iff.mp hm
      obtain ⟨e, heE, hme⟩ := List.mem_flatMap.mp hmE
      have heent := hmemE0 e heE
      refine ⟨((hgood e heent).2 m hme).1, ?_⟩
      have := L.mono e.1 m ((hgood e heent).2 m hme).2
      rwa [hbucket e heent] at this
    · simp only [List.flatMap_cons, List.flatMap_nil, List.append_nil]
      exact hnodeleaves.trans
        (List.Perm.flatMap_right _ hsplit.symm)
    · simp

/-- Inserting a fresh key appends the entry. -/
theorem insertKey_fresh {α β : Type} [DecidableEq α]
    {m : List (α × β)} {k : α} {v : β} (h : containsKey m k = false) :
    insertKey m k v = m ++ [(k, v)] := by
  unfold insertKey
  rw [h]
  simp

/-- Members of an insertion come from the map or are the new entry. -/
theorem mem_insertKey {α β : Type} [DecidableEq α]
    {m : List (α × β)} {k : α} {v : β} {e : α × β}
    (h : e ∈ insertKey m k v) : e ∈ m ∨ e = (k, v) := by
  unfold insertKey at h
  by_cases hc : containsKey m k = true
  · rw [if_pos hc] at h
    obtain ⟨kv, hkv, hkve⟩ := List.mem_map.mp h
    by_cases hk : kv.1 = k
    · right; rw [if_pos hk] at hkve; exact hkve.symm
    · left; rw [if_neg hk] at hkve; exact hkve ▸ hkv
  · rw [if_neg hc] at h
    rcases List.mem_append.mp h with h | h
    · exact Or.inl h
    · exact Or.inr (List.mem_singleton.mp h)

/-- An insertion is never empty. -/
theorem insertKey_ne_nil {α β : Type} [DecidableEq α]
    {m : List (α × β)} {k : α} {v : β} : insertKey m k v ≠ [] := by
  unfold insertKey
  by_cases hc : containsKey m k = true
  · rw [if_pos hc]
    intro h
    have := congrArg List.length h
    rw [List.length_map] at this
    cases m with
    | nil => simp [containsKey] at hc
    | cons a t => simp at this
  · rw [if_neg hc]
    simp

/-- Gens of the partition after one insertion: unchanged if the gen has a
bucket already, extended by it otherwise. -/
theorem addToBuckets_gens (bs : List (PersonKindSelector ×
      List (PersonKindSelector × PersonQualified)))
    (g : PersonKindSelector) (kv : PersonKindSelector × PersonQualified) :
    (addToBuckets bs g kv).map Prod.fst
      = if g ∈ bs.map Prod.fst then bs.map Prod.fst
        else bs.map Prod.fst ++ [g] := by
  induction bs with
  | nil => simp [addToBuckets]
  | cons gl rest ih =>
    obtain ⟨g', l⟩ := gl
    unfold addToBuckets
    by_cases hg : g' = g
    · subst hg
      rw [if_pos rfl, if_pos (by simp)]
      simp
    · rw [if_neg hg]
      simp only [List.map_cons, ih]
      by_cases hmem : g ∈ rest.map Prod.fst
      · simp [hmem]
      · simp [hmem, List.mem_cons,
          show ¬ g = g' from fun h => hg h.symm]

/-- Flattening after one insertion with a globally fresh key appends the
entry (up to permutation). -/
theorem addToBuckets_flatten (bs : List (PersonKindSelector ×
      List (PersonKindSelector × PersonQualified)))
    (g : PersonKindSelector) (kv : PersonKindSelector × PersonQualified)
    (hfresh : ∀ gl ∈ bs, containsKey gl.2 kv.1 = false) :
    (flattenBuckets (addToBuckets bs g kv)).Perm
      (flattenBuckets bs ++ [kv]) := by
  induction bs with
  | nil => simp [addToBuckets, flattenBuckets]
  | cons gl rest ih =>
    obtain ⟨g', l⟩ := gl
    have hfr : containsKey l kv.1 = false :=
      hfresh (g', l) (List.mem_cons_self _ _)
    have hft : ∀ gl ∈ rest, containsKey gl.2 kv.1 = false :=
      fun gl hgl => hfresh gl (List.mem_cons_of_mem _ hgl)
    unfold addToBuckets
    by_cases hg : g' = g
    · subst hg
      rw [if_pos rfl]
      unfold flattenBuckets
      simp only [List.flatMap_cons]
      rw [insertKey_fresh hfr, List.append_assoc, List.append_assoc]
      apply List.Perm.append_left l
      exact ((List.perm_append_singleton kv
        (rest.flatMap (fun gl => gl.2))).symm).trans
        (List.Perm.refl _) |>.symm.trans (List.Perm.refl _) |>.symm
    · rw [if_neg hg]
      unfold flattenBuckets
      simp only [List.flatMap_cons]
      have hihp := ih hft
      unfold flattenBuckets at hihp
      rw [List.append_assoc]
      exact hihp.append_left l

/-- Bucket classification after one insertion. -/
theorem addToBuckets_inv {T : Type} (d : Dim T)
    (bs : List (PersonKindSelector ×
      List (PersonKindSelector × PersonQualified)))
    (g : PersonKindSelector) (kv : PersonKindSelector × PersonQualified)
    (hbs : ∀ gl ∈ bs, ∀ e ∈ gl.2, d.setSel e.1 none = gl.1)
    (hk : d.setSel kv.1 none = g) :
    ∀ gl ∈ addToBuckets bs g kv, ∀ e ∈ gl.2,
      d.setSel e.1 none = gl.1 := by
  induction bs with
  | nil =>
    intro gl hgl e he
    simp only [addToBuckets, List.mem_singleton] at hgl
    subst hgl
    simp only [List.mem_singleton] at he
    subst he
    exact hk
  | cons gl0 rest ih =>
    obtain ⟨g', l⟩ := gl0
    intro gl hgl e he
    unfold addToBuckets at hgl
    by_cases hg : g' = g
    · subst hg
      rw [if_pos rfl] at hgl
      rcases List.mem_cons.mp hgl with hgl | hgl
      · subst hgl
        rcases mem_insertKey he with he | he
        · exact hbs (g', l) (List.mem_cons_self _ _) e he
        · rw [he]
          exact hk
      · exact hbs gl (List.mem_cons_of_mem _ hgl) e he
    · rw [if_neg hg] at hgl
      rcases List.mem_cons.mp hgl with hgl | hgl
      · subst hgl
        exact hbs _ (List.mem_cons_self _ _) e he
      · exact ih (fun gl2 hgl2 => hbs gl2 (List.mem_cons_of_mem _ hgl2))
          gl hgl e he

/-- Buckets stay nonempty through one insertion. -/
theorem addToBuckets_ne_nil (bs : List (PersonKindSelector ×
      List (PersonKindSelector × PersonQualified)))
    (g : PersonKindSelector) (kv : PersonKindSelector × PersonQualified)
    (hbs : ∀ gl ∈ bs, gl.2 ≠ []) :
    ∀ gl ∈ addToBuckets bs g kv, gl.2 ≠ [] := by
  induction bs with
  | nil =>
    intro gl hgl
    simp only [addToBuckets, List.mem_singleton] at hgl
    subst hgl
    simp
  | cons gl0 rest ih =>
    obtain ⟨g', l⟩ := gl0
    intro gl hgl
    unfold addToBuckets at hgl
    by_cases hg : g' = g
    · subst hg
      rw [if_pos rfl] at hgl
      rcases List.mem_cons.mp hgl with hgl | hgl
      · subst hgl; exact insertKey_ne_nil
      · exact hbs gl (List.mem_cons_of_mem _ hgl)
    · rw [if_neg hg] at hgl
      rcases List.mem_cons.mp hgl with hgl | hgl
      · subst hgl; exact hbs _ (List.mem_cons_self _ _)
      · exact ih (fun gl2 hgl2 => hbs gl2 (List.mem_cons_of_mem _ hgl2)) gl hgl

/-- Invariants of the bucket-building fold of `Qualifier::qualify`,
generalized over the starting accumulator. -/
theorem partition_foldl_spec {T : Type} [DecidableEq T] (d : Dim T) :
    ∀ (subs : List (PersonKindSelector × PersonQualified))
      (bs : List (PersonKindSelector ×
        List (PersonKindSelector × PersonQualified))),
    ((flattenBuckets bs ++ subs).map Prod.fst).Nodup →
    (∀ gl ∈ bs, ∀ e ∈ gl.2, d.setSel e.1 none = gl.1) →
    (∀ gl ∈ bs, gl.2 ≠ []) →
    (bs.map Prod.fst).Nodup →
    (flattenBuckets (subs.foldl
        (fun bs kv => addToBuckets bs (d.setSel kv.1 none) kv) bs)).Perm
      (flattenBuckets bs ++ subs)
    ∧ (∀ gl ∈ subs.foldl
        (fun bs kv => addToBuckets bs (d.setSel kv.1 none) kv) bs,
        ∀ e ∈ gl.2, d.setSel e.1 none = gl.1)
    ∧ (∀ gl ∈ subs.foldl
        (fun bs kv => addToBuckets bs (d.setSel kv.1 none) kv) bs,
        gl.2 ≠ [])
    ∧ ((subs.foldl
        (fun bs kv => addToBuckets bs (d.setSel kv.1 none) kv) bs).map
          Prod.fst).Nodup := by
  intro subs
  induction subs with
  | nil =>
    intro bs hnd hinv hne hgens
    simp only [List.foldl_nil, List.append_nil]
    exact ⟨List.Perm.refl _, hinv, hne, hgens⟩
  | cons kv rest ih =>
    intro bs hnd hinv hne hgens
    simp only [List.foldl_cons]
    have hfresh : ∀ gl ∈ bs, containsKey gl.2 kv.1 = false := by
      intro gl hgl
      cases hc : containsKey gl.2 kv.1 with
      | false => rfl
      | true =>
        exfalso
        obtain ⟨e, he, hek⟩ := containsKey_iff.mp hc
        have hmem1 : kv.1 ∈ (flattenBuckets bs).map Prod.fst := by
          apply List.mem_map.mpr
          exact ⟨e, List.mem_flatMap.mpr ⟨gl, hgl, he⟩, hek⟩
        have hmem2 : kv.1 ∈ (kv :: rest).map Prod.fst := by
          simp
        rw [List.map_append] at hnd
        exact (List.disjoint_of_nodup_append hnd) hmem1 hmem2
    have hflat := addToBuckets_flatten bs (d.setSel kv.1 none) kv hfresh
    have hnd2 : ((flattenBuckets (addToBuckets bs (d.setSel kv.1 none) kv)
        ++ rest).map Prod.fst).Nodup := by
      have hperm : (flattenBuckets (addToBuckets bs (d.setSel kv.1 none) kv)
          ++ rest).Perm (flattenBuckets bs ++ kv :: rest) := by
        refine (hflat.append_right rest).trans ?_
        rw [List.append_assoc]
        exact List.Perm.refl _
      exact ((hperm.map Prod.fst).nodup_iff).mpr hnd
    obtain ⟨c1, c2, c3, c4⟩ := ih (addToBuckets bs (d.setSel kv.1 none) kv)
      hnd2
      (addToBuckets_inv d bs _ kv hinv rfl)
      (addToBuckets_ne_nil bs _ kv hne)
      (by
        rw [addToBuckets_gens]
        by_cases hmem : d.setSel kv.1 none ∈ bs.map Prod.fst
        · rw [if_pos hmem]; exact hgens
        · rw [if_neg hmem]
          exact List.Nodup.append hgens (List.nodup_singleton _)
            (by simpa using hmem))
    refine ⟨?_, c2, c3, c4⟩
    refine c1.trans ?_
    refine (hflat.append_right rest).trans ?_
    rw [List.append_assoc]
    exact List.Perm.refl _

/-- Invariants of the bucket partition of `Qualifier::qualify`: the buckets
jointly permute the input, classify entries by their wildcarded selector,
are nonempty, and have pairwise distinct gens (for inputs with distinct
selectors). -/
theorem partitionByGen_spec {T : Type} [DecidableEq T] (d : Dim T)
    (subs : List (PersonKindSelector × PersonQualified))
    (hnd : (subs.map Prod.fst).Nodup) :
    (flattenBuckets (partitionByGen d subs)).Perm subs
    ∧ (∀ gl ∈ partitionByGen d subs, ∀ e ∈ gl.2,
        d.setSel e.1 none = gl.1)
    ∧ (∀ gl ∈ partitionByGen d subs, gl.2 ≠ [])
    ∧ ((partitionByGen d subs).map Prod.fst).Nodup := by
  have := partition_foldl_spec d subs []
    (by simpa [flattenBuckets] using hnd)
    (by intro gl hgl; simp at hgl)
    (by intro gl hgl; simp at hgl)
    (by simp)
  unfold partitionByGen
  simpa [flattenBuckets] using this

/-- Each bucket of the partition has distinct selectors (for inputs with
distinct selectors). -/
theorem partition_bucket_keys_nodup {T : Type} [DecidableEq T] (d : Dim T)
    (subs : List (PersonKindSelector × PersonQualified))
    (hnd : (subs.map Prod.fst).Nodup) :
    ∀ gl ∈ partitionByGen d subs, (gl.2.map Prod.fst).Nodup := by
  obtain ⟨hperm, _, _, _⟩ := partitionByGen_spec d subs hnd
  have hflat : ((flattenBuckets (partitionByGen d subs)).map
      Prod.fst).Nodup := ((hperm.map Prod.fst).nodup_iff).mpr hnd
  unfold flattenBuckets at hflat
  rw [List.map_flatMap] at hflat
  intro gl hgl
  exact (List.nodup_flatMap.mp hflat).1 gl hgl

/-- Central preservation properties of `Qualifier::qualify` on one
dimension: outputs keep the pipeline invariant, have distinct selectors,
preserve the reachable kinds up to permutation, and keep any selector
property stable under wildcarding this dimension. -/
theorem qualifyDim_good {T : Type} [DecidableEq T] {d : Dim T}
    (L : DimLaws T d) {V : VarMap}
    {subs : List (PersonKindSelector × PersonQualified)}
    (hkeys : (subs.map Prod.fst).Nodup)
    (hsome : ∀ e ∈ subs, ∃ x, d.getSel e.1 = some x)
    (hgood : ∀ e ∈ subs, GoodEntry V e) :
    (∀ o ∈ qualifyDim d subs, GoodEntry V o)
    ∧ ((qualifyDim d subs).map Prod.fst).Nodup
    ∧ ((qualifyDim d subs).flatMap (fun o => o.2.leaves)).Perm
        (subs.flatMap (fun e => e.2.leaves))
    ∧ ∀ (φ : PersonKindSelector → Prop), (∀ e ∈ subs, φ e.1) →
        (∀ s, φ s → φ (d.setSel s none)) →
        ∀ o ∈ qualifyDim d subs, φ o.1 := by
  obtain ⟨hperm, hinv, hne, hgens⟩ := partitionByGen_spec d subs hkeys
  have hbknd := partition_bucket_keys_nodup d subs hkeys
  have hmem_sub : ∀ gl ∈ partitionByGen d subs, ∀ e ∈ gl.2, e ∈ subs := by
    intro gl hgl e he
    exact hperm.mem_iff.mp (List.mem_flatMap.mpr ⟨gl, hgl, he⟩)
  have hval : ∀ gl ∈ partitionByGen d subs,
      (∀ o ∈ validate d gl.1 gl.2,
        GoodEntry V o ∧ (o.1 = gl.1 ∨ o ∈ gl.2))
      ∧ ((validate d gl.1 gl.2).flatMap (fun o => o.2.leaves)).Perm
          (gl.2.flatMap (fun e => e.2.leaves))
      ∧ ((validate d gl.1 gl.2).map Prod.fst).Nodup := by
    intro gl hgl
    exact validate_good L (hbknd gl hgl) (hinv gl hgl)
      (fun e he => hsome e (hmem_sub gl hgl e he))
      (fun e he => hgood e (hmem_sub gl hgl e he))
  have hclass : ∀ gl ∈ partitionByGen d subs, ∀ o ∈ validate d gl.1 gl.2,
      d.setSel o.1 none = gl.1 := by
    intro gl hgl o ho
    obtain ⟨e0, he0⟩ := List.exists_mem_of_ne_nil _ (hne gl hgl)
    have hg0 : d.setSel e0.1 none = gl.1 := hinv gl hgl e0 he0
    rcases ((hval gl hgl).1 o ho).2 with h | h
    · rw [h, ← hg0, L.set_set]
    · exact hinv gl hgl o h
  have hout_mem : ∀ o ∈ qualifyDim d subs, ∃ gl ∈ partitionByGen d subs,
      o ∈ validate d gl.1 gl.2 := by
    intro o ho
    unfold qualifyDim at ho
    exact List.mem_flatMap.mp ho
  refine ⟨?_, ?_, ?_, ?_⟩
  · intro o ho
    obtain ⟨gl, hgl, hov⟩ := hout_mem o ho
    exact (((hval gl hgl).1 o hov).1)
  · show ((partitionByGen d subs).flatMap
        (fun gl => validate d gl.1 gl.2) |>.map Prod.fst).Nodup
    rw [List.map_flatMap]
    rw [List.nodup_flatMap]
    refine ⟨fun gl hgl => (hval gl hgl).2.2, ?_⟩
    apply (pairwise_ne_of_nodup_map hgens).imp_of_mem
    intro gl1 gl2 h1 h2 hne12
    intro k hk1 hk2
    obtain ⟨o1, ho1, hko1⟩ := List.mem_map.mp hk1
    obtain ⟨o2, ho2, hko2⟩ := List.mem_map.mp hk2
    apply hne12
    rw [← hclass gl1 h1 o1 ho1, ← hclass gl2 h2 o2 ho2, hko1, hko2]
  · show ((partitionByGen d subs).flatMap
        (fun gl => validate d gl.1 gl.2) |>.flatMap
          (fun o => o.2.leaves)).Perm _
    rw [List.flatMap_assoc]
    refine (flatMap_perm_congr
      (fun gl hgl => (hval gl hgl).2.1)).trans ?_
    rw [← List.flatMap_assoc]
    exact List.Perm.flatMap_right _ hperm
  · intro φ hφ hφstable o ho
    obtain ⟨gl, hgl, hov⟩ := hout_mem o ho
    rcases ((hval gl hgl).1 o hov).2 with h | h
    · obtain ⟨e0, he0⟩ := List.exists_mem_of_ne_nil _ (hne gl hgl)
      have hg0 : d.setSel e0.1 none = gl.1 := hinv gl hgl e0 he0
      rw [h, ← hg0]
      exact hφstable _ (hφ e0 (hmem_sub gl hgl e0 he0))
    · exact hφ o (hmem_sub gl hgl o h)

/-- Wildcarding the tone slot leaves the hair slot unchanged. -/
theorem toneSet_none_hair (s : PersonKindSelector) :
    (toneDim.setSel s none).hair = s.hair := by cases s; rfl

/-- Wildcarding the tone slot leaves the people slot unchanged. -/
theorem toneSet_none_people (s : PersonKindSelector) :
    (toneDim.setSel s none).people = s.people := by cases s; rfl

/-- Wildcarding the people slot leaves the hair slot unchanged. -/
theorem peopleSet_none_hair (s : PersonKindSelector) :
    (peopleDim.setSel s none).hair = s.hair := by cases s; rfl

/-- Membership characterization of the tone-level leaf collection. -/
theorem mem_leafListTone {V : VarMap} {h : Option Hair}
    {p : Option (OneOrTwo × Option OneOrTwo)}
    {e : PersonKindSelector × PersonQualified} :
    e ∈ leafListTone V h p ↔ ∃ t ∈ toneOptions,
      containsKey V ⟨h, p, t⟩ = true
      ∧ e = (PersonKindSelector.ofKind ⟨h, p, t⟩,
          PersonQualified.Leaf ⟨h, p, t⟩) := by
  unfold leafListTone
  rw [List.mem_flatMap]
  constructor
  · rintro ⟨t, ht, he⟩
    by_cases hc : containsKey V ⟨h, p, t⟩ = true
    · rw [if_pos hc] at he
      exact ⟨t, ht, hc, List.mem_singleton.mp he⟩
    · rw [if_neg hc] at he
      simp at he
  · rintro ⟨t, ht, hc, rfl⟩
    exact ⟨t, ht, by rw [if_pos hc]; exact List.mem_singleton.mpr rfl⟩

/-- Input facts of the tone level: the collected leaf entries have
distinct selectors, satisfy the pipeline invariant, carry `Some`-level
tone slots, fix the outer slots, and reach exactly the present kinds. -/
theorem leafListTone_facts (V : VarMap) (h : Option Hair)
    (p : Option (OneOrTwo × Option OneOrTwo)) :
    ((leafListTone V h p).map Prod.fst).Nodup
    ∧ (∀ e ∈ leafListTone V h p, GoodEntry V e)
    ∧ (∀ e ∈ leafListTone V h p, ∃ x, toneDim.getSel e.1 = some x)
    ∧ (∀ e ∈ leafListTone V h p,
        e.1.hair = some h ∧ e.1.people = some p)
    ∧ (leafListTone V h p).flatMap (fun e => e.2.leaves)
        = kindsListTone V h p := by
  refine ⟨?_, ?_, ?_, ?_, ?_⟩
  · unfold leafListTone
    rw [List.map_flatMap]
    rw [List.nodup_flatMap]
    constructor
    · intro t _
      by_cases hc : containsKey V ⟨h, p, t⟩ = true
      · rw [if_pos hc]; simp
      · rw [if_neg hc]; simp
    · have hnd : toneOptions.Nodup := by decide
      apply (List.Pairwise.imp_of_mem ?_) hnd
      intro t1 t2 _ _ hne
      intro k hk1 hk2
      by_cases hc1 : containsKey V ⟨h, p, t1⟩ = true
      · by_cases hc2 : containsKey V ⟨h, p, t2⟩ = true
        · simp only [hc1, if_true, List.map_cons, List.map_nil,
            List.mem_singleton] at hk1
          simp only [hc2, if_true, List.map_cons, List.map_nil,
            List.mem_singleton] at hk2
          apply hne
          rw [hk1] at hk2
          simpa [PersonKindSelector.ofKind] using hk2
        · simp [hc2] at hk2
      · simp [hc1] at hk1
  · intro e he
    obtain ⟨t, _, hc, rfl⟩ := mem_leafListTone.mp he
    refine ⟨by simp [PersonQualified.leaves], ?_⟩
    intro m hm
    simp only [PersonQualified.leaves, List.mem_singleton] at hm
    subst hm
    exact ⟨hc, selects_ofKind _⟩
  · intro e he
    obtain ⟨t, _, _, rfl⟩ := mem_leafListTone.mp he
    exact ⟨(⟨h, p, t⟩ : PersonKind).tone, rfl⟩
  · intro e he
    obtain ⟨t, _, _, rfl⟩ := mem_leafListTone.mp he
    exact ⟨rfl, rfl⟩
  · unfold leafListTone kindsListTone
    rw [List.flatMap_assoc]
    apply List.flatMap_congr
    intro t _
    by_cases hc : containsKey V ⟨h, p, t⟩ = true
    · rw [if_pos hc, if_pos hc]; rfl
    · rw [if_neg hc, if_neg hc]; rfl

/-- Output facts of the tone level. -/
theorem qualifyTone_facts (V : VarMap) (h : Option Hair)
    (p : Option (OneOrTwo × Option OneOrTwo)) :
    (∀ o ∈ qualifyTone V h p, GoodEntry V o)
    ∧ ((qualifyTone V h p).map Prod.fst).Nodup
    ∧ ((qualifyTone V h p).flatMap (fun o => o.2.leaves)).Perm
        (kindsListTone V h p)
    ∧ (∀ o ∈ qualifyTone V h p,
        o.1.hair = some h ∧ o.1.people = some p) := by
  obtain ⟨k0, g0, s0, f0, l0⟩ := leafListTone_facts V h p
  obtain ⟨hg, hk, hl, hφ⟩ := qualifyDim_good toneLaws k0 s0 g0
  unfold qualifyTone
  refine ⟨hg, hk, by rw [← l0]; exact hl, ?_⟩
  exact hφ (fun s => s.hair = some h ∧ s.people = some p) f0
    (fun s hs => ⟨(toneSet_none_hair s).trans hs.1,
      (toneSet_none_people s).trans hs.2⟩)

/-- Output facts of the people level. -/
theorem qualifyPeople_facts (V : VarMap) (h : Option Hair) :
    (∀ o ∈ qualifyPeople V h, GoodEntry V o)
    ∧ ((qualifyPeople V h).map Prod.fst).Nodup
    ∧ ((qualifyPeople V h).flatMap (fun o => o.2.leaves)).Perm
        (peopleOptions.flatMap (fun p => kindsListTone V h p))
    ∧ (∀ o ∈ qualifyPeople V h, o.1.hair = some h) := by
  have hkeys : ((peopleOptions.flatMap
      (fun p => qualifyTone V h p)).map Prod.fst).Nodup := by
    rw [List.map_flatMap, List.nodup_flatMap]
    constructor
    · intro p _
      exact (qualifyTone_facts V h p).2.1
    · have hnd : peopleOptions.Nodup := by decide
      apply (List.Pairwise.imp_of_mem ?_) hnd
      intro p1 p2 _ _ hne k hk1 hk2
      obtain ⟨o1, ho1, rfl⟩ := List.mem_map.mp hk1
      obtain ⟨o2, ho2, ho12⟩ := List.mem_map.mp hk2
      have h1 := ((qualifyTone_facts V h p1).2.2.2 o1 ho1).2
      have h2 := ((qualifyTone_facts V h p2).2.2.2 o2 ho2).2
      rw [ho12] at h2
      rw [h1] at h2
      exact hne (Option.some_injective _ h2)
  have hsome : ∀ e ∈ peopleOptions.flatMap (fun p => qualifyTone V h p),
      ∃ x, peopleDim.getSel e.1 = some x := by
    intro e he
    obtain ⟨p, hp, hep⟩ := List.mem_flatMap.mp he
    exact ⟨p, ((qualifyTone_facts V h p).2.2.2 e hep).2⟩
  have hgood : ∀ e ∈ peopleOptions.flatMap (fun p => qualifyTone V h p),
      GoodEntry V e := by
    intro e he
    obtain ⟨p, hp, hep⟩ := List.mem_flatMap.mp he
    exact (qualifyTone_facts V h p).1 e hep
  obtain ⟨hg, hk, hl, hφ⟩ := qualifyDim_good peopleLaws hkeys hsome hgood
  unfold qualifyPeople
  refine ⟨hg, hk, ?_, ?_⟩
  · refine hl.trans ?_
    rw [List.flatMap_assoc]
    exact flatMap_perm_congr (fun p _ => (qualifyTone_facts V h p).2.2.1)
  · apply hφ (fun s => s.hair = some h)
    · intro e he
      obtain ⟨p, hp, hep⟩ := List.mem_flatMap.mp he
      exact ((qualifyTone_facts V h p).2.2.2 e hep).1
    · intro s hs
      exact (peopleSet_none_hair s).trans hs

/-- Output facts of the hair level: every entry of `qualifyAll` satisfies
the pipeline invariant, entries have distinct selectors, and the kinds
reachable over all entries are a permutation of the present kinds. -/
theorem qualifyAll_good (V : VarMap) :
    (∀ o ∈ qualifyAll V, GoodEntry V o)
    ∧ ((qualifyAll V).map Prod.fst).Nodup
    ∧ ((qualifyAll V).flatMap (fun o => o.2.leaves)).Perm
        (allLeafKinds V) := by
  have hkeys : ((hairOptions.flatMap
      (fun h => qualifyPeople V h)).map Prod.fst).Nodup := by
    rw [List.map_flatMap, List.nodup_flatMap]
    constructor
    · intro h _
      exact (qualifyPeople_facts V h).2.1
    · have hnd : hairOptions.Nodup := by decide
      apply (List.Pairwise.imp_of_mem ?_) hnd
      intro h1 h2 _ _ hne k hk1 hk2
      obtain ⟨o1, ho1, rfl⟩ := List.mem_map.mp hk1
      obtain ⟨o2, ho2, ho12⟩ := List.mem_map.mp hk2
      have hh1 := (qualifyPeople_facts V h1).2.2.2 o1 ho1
      have hh2 := (qualifyPeople_facts V h2).2.2.2 o2 ho2
      rw [ho12] at hh2
      rw [hh1] at hh2
      exact hne (Option.some_injective _ hh2)
  have hsome : ∀ e ∈ hairOptions.flatMap (fun h => qualifyPeople V h),
      ∃ x, hairDim.getSel e.1 = some x := by
    intro e he
    obtain ⟨h, hh, heh⟩ := List.mem_flatMap.mp he
    exact ⟨h, (qualifyPeople_facts V h).2.2.2 e heh⟩
  have hgood : ∀ e ∈ hairOptions.flatMap (fun h => qualifyPeople V h),
      GoodEntry V e := by
    intro e he
    obtain ⟨h, hh, heh⟩ := List.mem_flatMap.mp he
    exact (qualifyPeople_facts V h).1 e heh
  obtain ⟨hg, hk, hl, _⟩ := qualifyDim_good hairLaws hkeys hsome hgood
  unfold qualifyAll
  refine ⟨hg, hk, ?_⟩
  refine hl.trans ?_
  unfold allLeafKinds
  rw [List.flatMap_assoc]
  exact flatMap_perm_congr (fun h _ => (qualifyPeople_facts V h).2.2.1)

mutual

/-- The kinds listed by the enumeration projection are exactly the tree's
reachable kinds, in order. -/
theorem kinds_toAcc : ∀ (q : PersonQualified) (c p : String),
    (q.to_accessor_n_kind_internal c p).map (fun t => t.2.2) = q.leaves
  | .Leaf _, _, _ => by
    simp [PersonQualified.to_accessor_n_kind_internal,
      PersonQualified.leaves]
  | .Node none subs _, c, p => by
    simp only [PersonQualified.to_accessor_n_kind_internal,
      PersonQualified.leaves]
    exact kinds_accSubs subs c p
  | .Node (some d) subs _, c, p => by
    simp only [PersonQualified.to_accessor_n_kind_internal,
      PersonQualified.leaves, List.map_append]
    rw [kinds_toAcc d _ _, kinds_accSubs subs c p]

/-- Sub-entry version of `kinds_toAcc`. -/
theorem kinds_accSubs :
    ∀ (l : List (String × String × PersonQualified)) (c p : String),
    (accSubs l c p).map (fun t => t.2.2) = leavesSubs l
  | [], _, _ => rfl
  | (_, _, s) :: rest, c, p => by
    simp only [accSubs, leavesSubs, List.map_append]
    rw [kinds_toAcc s _ _, kinds_accSubs rest c p]

end

/-- Filtering does not change lookups whose hits all pass the filter. -/
theorem lookupKey_filter {α β : Type} [DecidableEq α]
    (p : α × β → Bool) (m : List (α × β)) (k : α)
    (h : ∀ kv ∈ m, kv.1 = k → p kv = true) :
    lookupKey (m.filter p) k = lookupKey m k := by
  induction m with
  | nil => rfl
  | cons a t ih =>
    obtain ⟨a1, a2⟩ := a
    rw [List.filter_cons]
    by_cases hak : a1 = k
    · rw [if_pos (h (a1, a2) (List.mem_cons_self _ _) hak)]
      rw [lookupKey_cons, lookupKey_cons, if_pos hak, if_pos hak]
    · have ht := ih (fun kv hkv hk => h kv (List.mem_cons_of_mem _ hkv) hk)
      by_cases hp : p (a1, a2) = true
      · rw [if_pos hp, lookupKey_cons, lookupKey_cons,
          if_neg hak, if_neg hak]
        exact ht
      · rw [if_neg hp, lookupKey_cons, if_neg hak]
        exact ht

/-- A present key has a payload. -/
theorem lookup_of_containsKey {α β : Type} [DecidableEq α]
    {m : List (α × β)} {k : α} (h : containsKey m k = true) :
    ∃ v, lookupKey m k = some v := by
  induction m with
  | nil => simp [containsKey] at h
  | cons a t ih =>
    obtain ⟨a1, a2⟩ := a
    rw [containsKey_cons] at h
    rw [lookupKey_cons]
    by_cases hak : a1 = k
    · exact ⟨a2, by rw [if_pos hak]⟩
    · rw [if_neg hak]
      rw [if_neg hak] at h
      exact ih h

/-- Every value of the attribute vocabularies is listed in `ALL`. -/
theorem mem_ALL_oneOrTwo (a : OneOrTwo) : a ∈ OneOrTwo.ALL := by
  rcases a with g | q
  · cases g <;> decide
  · cases q <;> decide

/-- Every tone is listed in `Tone::ALL`. -/
theorem mem_ALL_tone (t : Tone) : t ∈ Tone.ALL := by
  cases t <;> decide

/-- Every hair slot value is enumerated. -/
theorem mem_hairOptions (x : Option Hair) : x ∈ hairOptions := by
  rcases x with _ | h
  · exact List.mem_cons_self _ _
  · unfold hairOptions
    apply List.mem_cons_of_mem
    apply List.mem_map.mpr
    exact ⟨h, by cases h <;> decide, rfl⟩

/-- Every people slot value is enumerated. -/
theorem mem_peopleOptions (x : Option (OneOrTwo × Option OneOrTwo)) :
    x ∈ peopleOptions := by
  rcases x with _ | ⟨a, b⟩
  · exact List.mem_cons_self _ _
  · unfold peopleOptions
    apply List.mem_cons_of_mem
    apply List.mem_flatMap.mpr
    refine ⟨a, mem_ALL_oneOrTwo a, ?_⟩
    apply List.mem_map.mpr
    refine ⟨b, ?_, rfl⟩
    rcases b with _ | b2
    · exact List.mem_cons_self _ _
    · exact List.mem_cons_of_mem _
        (List.mem_map.mpr ⟨b2, mem_ALL_oneOrTwo b2, rfl⟩)

/-- Every tone slot value is enumerated. -/
theorem mem_toneOptions (x : Option (Tone × Option Tone)) :
    x ∈ toneOptions := by
  rcases x with _ | ⟨t, s⟩
  · exact List.mem_cons_self _ _
  · unfold toneOptions
    apply List.mem_cons_of_mem
    apply List.mem_flatMap.mpr
    refine ⟨t, mem_ALL_tone t, ?_⟩
    apply List.mem_map.mpr
    refine ⟨s, ?_, rfl⟩
    rcases s with _ | s2
    · exact List.mem_cons_self _ _
    · exact List.mem_cons_of_mem _
        (List.mem_map.mpr ⟨s2, mem_ALL_tone s2, rfl⟩)

/-- Every kind present in the variant map appears among the enumerated
leaf kinds. -/
theorem mem_allLeafKinds {V : VarMap} {k : PersonKind}
    (h : containsKey V k = true) : k ∈ allLeafKinds V := by
  obtain ⟨kh, kp, kt⟩ := k
  unfold allLeafKinds kindsListTone
  apply List.mem_flatMap.mpr
  refine ⟨kh, mem_hairOptions kh, ?_⟩
  apply List.mem_flatMap.mpr
  refine ⟨kp, mem_peopleOptions kp, ?_⟩
  apply List.mem_flatMap.mpr
  refine ⟨kt, mem_toneOptions kt, ?_⟩
  rw [if_pos h]
  exact List.mem_singleton.mpr rfl

/-- A successful lookup implies key presence. -/
theorem containsKey_of_lookup {α β : Type} [DecidableEq α]
    {m : List (α × β)} {k : α} {v : β} (h : lookupKey m k = some v) :
    containsKey m k = true := by
  induction m with
  | nil => simp [lookupKey] at h
  | cons a t ih =>
    obtain ⟨a1, a2⟩ := a
    rw [lookupKey_cons] at h
    rw [containsKey_cons]
    by_cases hak : a1 = k
    · rw [if_pos hak]
    · rw [if_neg hak] at h ⊢
      exact ih h

/-- Membership characterization of `PersonEmoji::scrub`. -/
theorem mem_scrub {e r : PersonEmoji} :
    r ∈ e.scrub ↔ ∃ cg ∈ qualifyAll e.variants,
      r = { identifier :=
              generate_constant (cg.1.adapt_identifier e.identifier)
            fancy_name := e.fancy_name
            grouping := some cg.2
            variants :=
              e.variants.filter (fun kv => cg.1.selects kv.1) } := by
  unfold PersonEmoji.scrub
  rw [List.mem_map]
  constructor
  · rintro ⟨cg, hcg, rfl⟩
    exact ⟨cg, hcg, rfl⟩
  · rintro ⟨cg, hcg, rfl⟩
    exact ⟨cg, hcg, rfl⟩

/-- Claim C1, counterexample: on the mixed record `exMixed`, finalization
produces a first output record whose variants map contains the stray kind
(the record's wildcard selector captures it) while its enumeration
projection lists no triple for it — refuting "for every AttributeKey k in
its variants map ... exactly one triple". -/
theorem c1_counterexample :
    (PersonEmoji.scrub exMixed).map (fun r =>
      (containsKey r.variants kStray,
       r.grouping.map (fun g =>
         ((g.to_accessor_n_kind r.identifier).map
           (fun t => t.2.2)).count kStray)))
      = [(true, some 0), (true, some 1)] := by
  simp only [PersonEmoji.scrub, qualifyAll_eff, qualifyPeople_eff]
  decide

/-- Claim C1, amended: for every family record produced by finalization
and every AttributeKey k reachable in its qualified tree, the enumeration
projection contains exactly one triple whose AttributeKey equals k, and
the payload reported for it is the input map's payload for k (which
exists).  (The original claim ranged over every key of the record's
variants map; the counterexample shows a selected key need not be
reachable.) -/
theorem c1_exactly_one_triple_per_reachable_key (e r : PersonEmoji)
    (hr : r ∈ e.scrub) (g : PersonQualified) (hg : r.grouping = some g)
    (k : PersonKind) (hk : k ∈ g.leaves) :
    ((g.to_accessor_n_kind r.identifier).map (fun t => t.2.2)).count k = 1
    ∧ lookupKey r.variants k = lookupKey e.variants k
    ∧ ∃ v, lookupKey e.variants k = some v := by
  obtain ⟨cg, hcg, rfl⟩ := mem_scrub.mp hr
  have hgg : cg.2 = g := by
    simpa using hg
  subst hgg
  have hgood := (qualifyAll_good e.variants).1 cg hcg
  have hckind := (hgood.2 k hk).1
  have hsel := (hgood.2 k hk).2
  refine ⟨?_, ?_, lookup_of_containsKey hckind⟩
  · unfold PersonQualified.to_accessor_n_kind
    rw [kinds_toAcc]
    exact List.count_eq_one_of_mem hgood.1 hk
  · exact lookupKey_filter _ e.variants k
      (fun kv _ hkv => by rw [hkv]; exact hsel)

/-- Witness for the amended claim C1 at the single-variant record. -/
theorem c1_witness :
    (((PersonQualified.Leaf (⟨none, none, none⟩ : PersonKind)).to_accessor_n_kind
        "WAVE").map (fun t => t.2.2)).count ⟨none, none, none⟩ = 1 := by
  have hscrub : PersonEmoji.scrub exSingle = [exSingleScrubbed] := by
    simp only [PersonEmoji.scrub, qualifyAll_eff, qualifyPeople_eff]
    rfl
  have hmem : exSingleScrubbed ∈ PersonEmoji.scrub exSingle := by
    rw [hscrub]
    exact List.mem_singleton.mpr rfl
  exact (c1_exactly_one_triple_per_reachable_key exSingle exSingleScrubbed
    hmem (PersonQualified.Leaf ⟨none, none, none⟩) rfl
    ⟨none, none, none⟩ (List.mem_singleton.mpr rfl)).1

/-- Claim C10, counterexample: on the mixed record, the stray kind's
variant is selected into two distinct output records — the output
selectors are not pairwise disjoint over the input's keys, and the key is
not selected by exactly one output record. -/
theorem c10_counterexample :
    ((PersonEmoji.scrub exMixed).countP
      (fun r => containsKey r.variants kStray)) = 2 := by
  simp only [PersonEmoji.scrub, qualifyAll_eff, qualifyPeople_eff]
  decide

/-- Claim C10, amended: finalization covers the input record's variant map
— every key/payload pair of the input appears in at least one output
record (with its exact payload), and each output record's variants map is
the input map restricted to the record's selector; the outputs need not
be disjoint. -/
theorem c10_scrub_covers (e : PersonEmoji) :
    (∀ k v, lookupKey e.variants k = some v →
      ∃ r ∈ e.scrub, lookupKey r.variants k = some v)
    ∧ ∀ r ∈ e.scrub, ∃ c : PersonKindSelector,
        r.variants = e.variants.filter (fun kv => c.selects kv.1) := by
  constructor
  · intro k v hl
    have hc : containsKey e.variants k = true := containsKey_of_lookup hl
    have hmemk : k ∈ allLeafKinds e.variants := mem_allLeafKinds hc
    obtain ⟨_, _, hperm⟩ := qualifyAll_good e.variants
    have hkq : k ∈ (qualifyAll e.variants).flatMap
        (fun o => o.2.leaves) := hperm.mem_iff.mpr hmemk
    obtain ⟨cg, hcg, hkcg⟩ := List.mem_flatMap.mp hkq
    have hgood := (qualifyAll_good e.variants).1 cg hcg
    have hsel := (hgood.2 k hkcg).2
    refine ⟨_, mem_scrub.mpr ⟨cg, hcg, rfl⟩, ?_⟩
    show lookupKey (e.variants.filter (fun kv => cg.1.selects kv.1)) k
      = some v
    rw [lookupKey_filter _ e.variants k
      (fun kv _ hkv => by rw [hkv]; exact hsel)]
    exact hl
  · intro r hr
    obtain ⟨cg, hcg, rfl⟩ := mem_scrub.mp hr
    exact ⟨cg.1, rfl⟩

/-- Witness for the amended claim C10 at the single-variant record. -/
theorem c10_witness :
    ∃ r ∈ PersonEmoji.scrub exSingle,
      lookupKey r.variants ⟨none, none, none⟩ = some (mkVar "w") :=
  (c10_scrub_covers exSingle).1 ⟨none, none, none⟩ (mkVar "w") rfl

/-- Unfolding lemmas of `mgStep`. -/
theorem mgStep_nil (t : String × String × PersonKind) :
    mgStep [] t = [t] := rfl

/-- Cons unfolding of `mgStep`. -/
theorem mgStep_cons (v0 : String × String × PersonKind)
    (rest : List (String × String × PersonKind))
    (t : String × String × PersonKind) :
    mgStep (v0 :: rest) t
      = if v0.2.2.default_level = t.2.2.default_level
        then (v0 :: rest) ++ [t]
        else if v0.2.2.default_level < t.2.2.default_level then [t]
        else v0 :: rest := rfl

/-- Fold invariant of the most-generic selection: the accumulator holds
exactly elements of maximal specificity seen so far. -/
theorem mostGeneral_aux :
    ∀ (l acc seen : List (String × String × PersonKind)),
    (∀ t ∈ acc, t ∈ seen) →
    (∀ t ∈ acc, ∀ u ∈ seen,
      u.2.2.default_level ≤ t.2.2.default_level) →
    (∀ t ∈ acc, ∀ u ∈ acc,
      t.2.2.default_level = u.2.2.default_level) →
    (acc = [] → seen = []) →
    (∀ t ∈ l.foldl mgStep acc, t ∈ seen ++ l)
    ∧ (∀ t ∈ l.foldl mgStep acc, ∀ u ∈ seen ++ l,
        u.2.2.default_level ≤ t.2.2.default_level)
    ∧ (∀ t ∈ l.foldl mgStep acc, ∀ u ∈ l.foldl mgStep acc,
        t.2.2.default_level = u.2.2.default_level)
  | [], acc, seen, hmem, hmax, huni, _ => by
    simp only [List.foldl_nil, List.append_nil]
    exact ⟨hmem, hmax, huni⟩
  | x :: l, acc, seen, hmem, hmax, huni, hemp => by
    rw [List.foldl_cons]
    have hstep : ∀ P : List (String × String × PersonKind) → Prop,
        P (List.foldl mgStep (mgStep acc x) l) →
        P (List.foldl mgStep (mgStep acc x) l) := fun _ h => h
    have hext : seen ++ x :: l = (seen ++ [x]) ++ l := by
      rw [List.append_assoc]
      rfl
    rw [hext]
    apply mostGeneral_aux l (mgStep acc x) (seen ++ [x])
    · intro t ht
      cases acc with
      | nil =>
        simp only [mgStep_nil, List.mem_singleton] at ht
        subst ht
        simp
      | cons v0 rest =>
        rw [mgStep_cons] at ht
        by_cases he : v0.2.2.default_level = x.2.2.default_level
        · rw [if_pos he] at ht
          rcases List.mem_append.mp ht with ht | ht
          · exact List.mem_append_left _ (hmem t ht)
          · simp only [List.mem_singleton] at ht
            subst ht
            simp
        · rw [if_neg he] at ht
          by_cases hlt : v0.2.2.default_level < x.2.2.default_level
          · rw [if_pos hlt] at ht
            simp only [List.mem_singleton] at ht
            subst ht
            simp
          · rw [if_neg hlt] at ht
            exact List.mem_append_left _ (hmem t ht)
    · intro t ht u hu
      cases acc with
      | nil =>
        simp only [mgStep_nil, List.mem_singleton] at ht
        subst ht
        rcases List.mem_append.mp hu with hu | hu
        · rw [hemp rfl] at hu
          simp at hu
        · simp only [List.mem_singleton] at hu
          subst hu
          exact Nat.le_refl _
      | cons v0 rest =>
        have hv0 : v0 ∈ v0 :: rest := List.mem_cons_self _ _
        rw [mgStep_cons] at ht
        by_cases he : v0.2.2.default_level = x.2.2.default_level
        · rw [if_pos he] at ht
          have htl : t.2.2.default_level = v0.2.2.default_level := by
            rcases List.mem_append.mp ht with ht | ht
            · exact (huni v0 hv0 t ht).symm
            · simp only [List.mem_singleton] at ht
              subst ht
              exact he.symm
          rcases List.mem_append.mp hu with hu | hu
          · rw [htl]
            exact hmax v0 hv0 u hu
          · simp only [List.mem_singleton] at hu
            subst hu
            rw [htl, ← he]
        · rw [if_neg he] at ht
          by_cases hlt : v0.2.2.default_level < x.2.2.default_level
          · rw [if_pos hlt] at ht
            simp only [List.mem_singleton] at ht
            subst ht
            rcases List.mem_append.mp hu with hu | hu
            · exact Nat.le_of_lt (Nat.lt_of_le_of_lt
                (hmax v0 hv0 u hu) hlt)
            · simp only [List.mem_singleton] at hu
              subst hu
              exact Nat.le_refl _
          · rw [if_neg hlt] at ht
            rcases List.mem_append.mp hu with hu | hu
            · exact hmax t ht u hu
            · simp only [List.mem_singleton] at hu
              rw [hu]
              have hxle : x.2.2.default_level ≤ v0.2.2.default_level :=
                Nat.le_of_not_lt hlt
              rw [huni t ht v0 hv0]
              exact hxle
    · intro t ht u hu
      cases acc with
      | nil =>
        simp only [mgStep_nil, List.mem_singleton] at ht hu
        rw [ht, hu]
      | cons v0 rest =>
        have hv0 : v0 ∈ v0 :: rest := List.mem_cons_self _ _
        rw [mgStep_cons] at ht
        rw [mgStep_cons] at hu
        by_cases he : v0.2.2.default_level = x.2.2.default_level
        · rw [if_pos he] at ht hu
          have hlev : ∀ w ∈ (v0 :: rest) ++ [x],
              w.2.2.default_level = v0.2.2.default_level := by
            intro w hw
            rcases List.mem_append.mp hw with hw | hw
            · exact (huni v0 hv0 w hw).symm
            · simp only [List.mem_singleton] at hw
              subst hw
              exact he.symm
          rw [hlev t ht, hlev u hu]
        · rw [if_neg he] at ht hu
          by_cases hlt : v0.2.2.default_level < x.2.2.default_level
          · rw [if_pos hlt] at ht hu
            simp only [List.mem_singleton] at ht hu
            rw [ht, hu]
          · rw [if_neg hlt] at ht hu
            exact huni t ht u hu
    · intro hx
      cases acc with
      | nil => simp [mgStep_nil] at hx
      | cons v0 rest =>
        exfalso
        rw [mgStep_cons] at hx
        by_cases he : v0.2.2.default_level = x.2.2.default_level
        · rw [if_pos he] at hx
          simp at hx
        · rw [if_neg he] at hx
          by_cases hlt : v0.2.2.default_level < x.2.2.default_level
          · rw [if_pos hlt] at hx
            simp at hx
          · rw [if_neg hlt] at hx
            simp at hx

/-- The most-generic selection picks members of the list, of maximal
specificity, all of one specificity. -/
theorem mostGeneral_spec (l : List (String × String × PersonKind)) :
    (∀ t ∈ mostGeneral l, t ∈ l)
    ∧ (∀ t ∈ mostGeneral l, ∀ u ∈ l,
        u.2.2.default_level ≤ t.2.2.default_level)
    ∧ (∀ t ∈ mostGeneral l, ∀ u ∈ mostGeneral l,
        t.2.2.default_level = u.2.2.default_level) := by
  have h := mostGeneral_aux l [] []
    (by simp) (by simp) (by simp) (fun _ => rfl)
  simpa [mostGeneral] using h

/-- Adjacent deduplication preserves the member set. -/
theorem mem_dedupAdj {α : Type} [DecidableEq α] :
    ∀ {l : List α} {a : α}, a ∈ dedupAdj l ↔ a ∈ l
  | [], a => by simp [dedupAdj]
  | [b], a => by simp [dedupAdj]
  | b :: c :: t, a => by
    unfold dedupAdj
    by_cases hbc : b = c
    · rw [if_pos hbc]
      rw [mem_dedupAdj]
      subst hbc
      simp [List.mem_cons]
    · rw [if_neg hbc]
      simp only [List.mem_cons]
      rw [show (a ∈ dedupAdj (c :: t)) ↔ (a ∈ c :: t) from mem_dedupAdj]
      simp [List.mem_cons]

/-- Claim C5: the "most generic" (default) selection of a finalized
record returns only triples of maximal specificity score — when two
reachable keys have strictly ordered scores, the selection sits at or
above the higher one, excludes the lower score entirely, and never mixes
scores. -/
theorem c5_default_selection (e : PersonEmoji) (g : PersonQualified)
    (hg : e.grouping = some g) (dk : List (String × String × PersonKind))
    (hdk : e.default_variant_kinds = some dk)
    (a1 a2 : String × String × PersonKind)
    (h1 : a1 ∈ g.to_accessor_n_kind e.identifier)
    (_h2 : a2 ∈ g.to_accessor_n_kind e.identifier)
    (hlt : a2.2.2.default_level < a1.2.2.default_level) :
    (∀ t ∈ dk, a1.2.2.default_level ≤ t.2.2.default_level)
    ∧ (∀ t ∈ dk, ¬ t.2.2.default_level = a2.2.2.default_level)
    ∧ (∀ t ∈ dk, ∀ u ∈ dk,
        t.2.2.default_level = u.2.2.default_level) := by
  unfold PersonEmoji.default_variant_kinds at hdk
  rw [hg] at hdk
  replace hdk : dedupAdj (stableSort tripleLt
      (mostGeneral (g.to_accessor_n_kind e.identifier))) = dk := by
    simpa using hdk
  obtain ⟨m1, m2, m3⟩ := mostGeneral_spec (g.to_accessor_n_kind e.identifier)
  have hmg : ∀ t ∈ dk, t ∈ mostGeneral (g.to_accessor_n_kind e.identifier) := by
    intro t ht
    rw [← hdk] at ht
    exact (stableSort_perm tripleLt _).mem_iff.mp (mem_dedupAdj.mp ht)
  refine ⟨?_, ?_, ?_⟩
  · intro t ht
    exact m2 t (hmg t ht) a1 h1
  · intro t ht hcon
    have := m2 t (hmg t ht) a1 h1
    rw [hcon] at this
    exact Nat.not_lt.mpr this hlt
  · intro t ht u hu
    exact m3 t (hmg t ht) u (hmg u hu)

/-- Witness for claim C5 at `exLevels`: the selected default kind's level
differs from the more specific leaf's level. -/
theorem c5_witness :
    ¬ (⟨none, none, none⟩ : PersonKind).default_level
      = (⟨some .Beard, none, none⟩ : PersonKind).default_level := by
  have h := c5_default_selection exLevels
    (.Node none
      [("a", "a", .Leaf ⟨none, none, none⟩),
       ("b", "b", .Leaf ⟨some .Beard, none, none⟩)] "X")
    rfl
    [("T.a", "T.a", ⟨none, none, none⟩)]
    (by decide)
    ("T.a", "T.a", ⟨none, none, none⟩)
    ("T.b", "T.b", ⟨some .Beard, none, none⟩)
    (by decide) (by decide) (by decide)
  exact h.2.1 ("T.a", "T.a", ⟨none, none, none⟩)
    (List.mem_singleton.mpr rfl)

/-- Claim C3 (Scenario B): a two-person concept present for all three
`Pair` values, each crossed with all 25 tone-pair combinations, finalizes
into a single output record whose tree is an outer defaultless `Node`
tagged "Pair" with three sub-trees, each a defaultless `Node` tagged
"TonePair" with 25 sub-entries. -/
theorem c3_scenario_pairs :
    (PersonEmoji.scrub exPairs).map (fun r =>
      r.grouping.map (fun g => (topShape g, subShapes g)))
      = [some (some ⟨false, "Pair", 3⟩,
          [some ⟨false, "TonePair", 25⟩, some ⟨false, "TonePair", 25⟩,
            some ⟨false, "TonePair", 25⟩])] := by
  simp only [PersonEmoji.scrub, qualifyAll_eff, qualifyPeople_eff]
  decide

/-- Claim C4 (Scenario C): a concept with exactly two of the six hair
values matches no hair `QualifierSet`, so finalization yields two
independent records, each holding exactly its one hair kind, with the hair
value's human-readable name appended to the identifier, and each tree a
bare leaf (no hair-customizable node). -/
theorem c4_scenario_hair :
    (PersonEmoji.scrub exHair).map (fun r => r.identifier)
      = ["NINJA_WITH_BEARD", "NINJA_WITH_BLOND_HAIR"]
    ∧ (PersonEmoji.scrub exHair).map (fun r => r.variants.map Prod.fst)
      = [[⟨some .Beard, none, none⟩], [⟨some .Blond, none, none⟩]]
    ∧ (PersonEmoji.scrub exHair).map (fun r => r.grouping.map topShape)
      = [some none, some none] := by
  refine ⟨?_, ?_, ?_⟩ <;>
    (simp only [PersonEmoji.scrub, qualifyAll_eff, qualifyPeople_eff];
     decide)

/-- Replacing a key's payload by mapping leaves other keys' lookups
unchanged. -/
theorem lookup_map_replace {α β : Type} [DecidableEq α]
    (m : List (α × β)) (k : α) (v : β) (k2 : α) (h : ¬ k2 = k) :
    lookupKey (m.map (fun kv => if kv.1 = k then (k, v) else kv)) k2
      = lookupKey m k2 := by
  induction m with
  | nil => rfl
  | cons a t ih =>
    obtain ⟨a1, a2⟩ := a
    simp only [List.map_cons]
    by_cases hak : a1 = k
    · rw [show ((if (a1, a2).1 = k then (k, v) else (a1, a2))) = (k, v)
          from by simp [hak]]
      rw [lookupKey_cons, lookupKey_cons]
      rw [if_neg (fun hkk2 => h hkk2.symm)]
      rw [if_neg (fun hkk2 : a1 = k2 => h (hkk2.symm.trans hak))]
      exact ih
    · rw [show ((if (a1, a2).1 = k then (k, v) else (a1, a2))) = (a1, a2)
          from by simp [hak]]
      rw [lookupKey_cons, lookupKey_cons]
      by_cases ha2 : a1 = k2
      · rw [if_pos ha2, if_pos ha2]
      · rw [if_neg ha2, if_neg ha2]
        exact ih

/-- Replacing a key's payload by mapping makes that key's lookup the new
payload (when the key is present). -/
theorem lookup_map_replace_self {α β : Type} [DecidableEq α]
    (m : List (α × β)) (k : α) (v : β) (h : containsKey m k = true) :
    lookupKey (m.map (fun kv => if kv.1 = k then (k, v) else kv)) k
      = some v := by
  induction m with
  | nil => simp [containsKey] at h
  | cons a t ih =>
    obtain ⟨a1, a2⟩ := a
    rw [containsKey_cons] at h
    simp only [List.map_cons]
    by_cases hak : a1 = k
    · rw [show ((if (a1, a2).1 = k then (k, v) else (a1, a2))) = (k, v)
          from by simp [hak]]
      rw [lookupKey_cons, if_pos rfl]
    · rw [show ((if (a1, a2).1 = k then (k, v) else (a1, a2))) = (a1, a2)
          from by simp [hak]]
      rw [lookupKey_cons, if_neg hak]
      rw [if_neg hak] at h
      exact ih h

/-- Appending a fresh entry answers lookups for its key. -/
theorem lookup_append_singleton_self {α β : Type} [DecidableEq α]
    (m : List (α × β)) (k : α) (v : β) (h : containsKey m k = false) :
    lookupKey (m ++ [(k, v)]) k = some v := by
  induction m with
  | nil => simp [lookupKey, List.find?_cons]
  | cons a t ih =>
    obtain ⟨a1, a2⟩ := a
    rw [containsKey_cons] at h
    rw [List.cons_append, lookupKey_cons]
    by_cases hak : a1 = k
    · rw [if_pos hak] at h
      simp at h
    · rw [if_neg hak] at h ⊢
      exact ih h

/-- Appending an entry leaves other keys' lookups unchanged. -/
theorem lookup_append_singleton_other {α β : Type} [DecidableEq α]
    (m : List (α × β)) (k : α) (v : β) (k2 : α) (h : ¬ k2 = k) :
    lookupKey (m ++ [(k, v)]) k2 = lookupKey m k2 := by
  induction m with
  | nil =>
    simp only [List.nil_append, lookupKey_cons]
    rw [if_neg (fun hkk2 => h hkk2.symm)]
  | cons a t ih =>
    obtain ⟨a1, a2⟩ := a
    rw [List.cons_append, lookupKey_cons, lookupKey_cons]
    by_cases ha2 : a1 = k2
    · rw [if_pos ha2, if_pos ha2]
    · rw [if_neg ha2, if_neg ha2]
      exact ih

/-- Claim C7: during every modelled merge step, inserting an attribute
key that is already present sets the duplicate flag (the
`debug_assert!` fires, fatal in builds with assertions enabled) while the
payload is silently overwritten and all other entries survive (processing
continues when assertions are compiled out); a fresh key raises no
flag.  The three merge sites (`append_person`, the standalone fold-in,
and the person-merge loop) all reduce to this guarded insertion. -/
theorem c7_duplicate_insert (m : VarMap) (k : PersonKind)
    (v : PersonVariant) :
    (containsKey m k = true →
      (insertChecked m k v).2 = true
      ∧ lookupKey (insertChecked m k v).1 k = some v
      ∧ ∀ k2, ¬ k2 = k →
          lookupKey (insertChecked m k v).1 k2 = lookupKey m k2)
    ∧ (containsKey m k = false → (insertChecked m k v).2 = false)
    ∧ appendPersonVariant m k v = insertChecked m k v
    ∧ foldStandalone m v = insertChecked m PersonKind.default v
    ∧ mergeVariants m [(k, v)] = insertChecked m k v := by
  refine ⟨?_, ?_, rfl, rfl, ?_⟩
  · intro hc
    refine ⟨hc, ?_, ?_⟩
    · show lookupKey (insertKey m k v) k = some v
      unfold insertKey
      rw [if_pos hc]
      exact lookup_map_replace_self m k v hc
    · intro k2 hk2
      show lookupKey (insertKey m k v) k2 = lookupKey m k2
      unfold insertKey
      rw [if_pos hc]
      exact lookup_map_replace m k v k2 hk2
  · intro hc
    show containsKey m k = false
    exact hc
  · show ((insertChecked m k v).1, false || (insertChecked m k v).2)
      = insertChecked m k v
    rw [Bool.false_or]

/-- Witness for claim C7: inserting the default kind twice flags the
duplicate and overwrites the payload. -/
theorem c7_witness :
    (insertChecked [(PersonKind.default, mkVar "a")] PersonKind.default
      (mkVar "b")).2 = true
    ∧ lookupKey (insertChecked [(PersonKind.default, mkVar "a")]
        PersonKind.default (mkVar "b")).1 PersonKind.default
      = some (mkVar "b") := by
  have h := (c7_duplicate_insert [(PersonKind.default, mkVar "a")]
    PersonKind.default (mkVar "b")).1 (by decide)
  exact ⟨h.1, h.2.1⟩

/-- Claim C6: the specificity score (`default_level`) is the weighted
count of unset slots, with weights hair 1, secondary-people 2, people 4,
secondary-tone 8, tone 16 (an unset people/tone slot also leaves its
secondary slot unset). -/
theorem c6_default_level_weights (k : PersonKind) :
    k.default_level
      = (if k.hair = none then 1 else 0)
        + (if (match k.people with
            | none => true
            | some p => p.2 = none) then 2 else 0)
        + (if k.people = none then 4 else 0)
        + (if (match k.tone with
            | none => true
            | some t => t.2 = none) then 8 else 0)
        + (if k.tone = none then 16 else 0) := by
  obtain ⟨h, p, t⟩ := k
  rcases h with _ | h <;>
    rcases p with _ | ⟨a, _ | b⟩ <;>
    rcases t with _ | ⟨u, _ | w⟩ <;>
    simp [PersonKind.default_level]

/-- Claim C8: the constructor and enumeration projections of an
un-finalized family record all signal the precondition violation (`none`
models the panic), and every record output by finalization carries a
qualified tree. -/
theorem c8_unfinalized_projections :
    (∀ e : PersonEmoji, e.grouping = none →
      e.full_emoji_list = none ∧ e.default_variants = none
        ∧ e.to_source_code = none)
    ∧ ∀ (e r : PersonEmoji), r ∈ e.scrub → r.grouping.isSome = true := by
  constructor
  · intro e he
    refine ⟨?_, ?_, ?_⟩
    · simp [PersonEmoji.full_emoji_list, he]
    · simp [PersonEmoji.default_variants, PersonEmoji.default_variant_kinds,
        he]
    · simp [PersonEmoji.to_source_code, he]
  · intro e r hr
    obtain ⟨cg, _, rfl⟩ := mem_scrub.mp hr
    rfl

/-- Witness for claim C8 at concrete records. -/
theorem c8_witness :
    exSingle.full_emoji_list = none
      ∧ exSingleScrubbed.grouping.isSome = true := by
  constructor
  · exact ((c8_unfinalized_projections.1 exSingle rfl).1)
  · apply c8_unfinalized_projections.2 exSingle exSingleScrubbed
    have hscrub : PersonEmoji.scrub exSingle = [exSingleScrubbed] := by
      simp only [PersonEmoji.scrub, qualifyAll_eff, qualifyPeople_eff]
      rfl
    rw [hscrub]
    exact List.mem_singleton.mpr rfl

/-- The spec-style validation loop agrees with the `find?`-based source
translation on every suffix of the set list. -/
theorem validateSpecLoop_eq {T : Type} [DecidableEq T] (d : Dim T)
    (gen : PersonKindSelector)
    (entries : List (PersonKindSelector × PersonQualified)) :
    ∀ sets : List (QualifierSet T),
      validateSpecLoop d gen entries sets
        = match sets.find? (coversSet d gen entries) with
          | some s => [buildNode d gen entries s]
          | none => entries
  | [] => rfl
  | s :: rest => by
    cases hc : coversSet d gen entries s with
    | true =>
      rw [List.find?_cons_of_pos _ hc]
      show (if coversSet d gen entries s = true
          then [buildNode d gen entries s]
          else validateSpecLoop d gen entries rest)
        = [buildNode d gen entries s]
      rw [if_pos hc]
    | false =>
      rw [List.find?_cons_of_neg _ (by simp [hc])]
      show (if coversSet d gen entries s = true
          then [buildNode d gen entries s]
          else validateSpecLoop d gen entries rest)
        = _
      rw [if_neg (by simp [hc])]
      exact validateSpecLoop_eq d gen entries rest

/-- Claim C2: for one dimension and one bucket, validation tries the
dimension's `QualifierSet`s in declaration order; at the first fully
covered set it removes the default-level member as the default branch,
sorts the remaining members by their selector and returns exactly one
(generalized selector, node) pair; if no set is fully covered it returns
the bucket's members unaltered.  The source `validate` is extensionally
equal to the spec-style loop, returns the bucket unchanged when nothing is
covered, and returns a single pair as soon as some set is covered. -/
theorem c2_validate_algorithm {T : Type} [DecidableEq T] (d : Dim T)
    (gen : PersonKindSelector)
    (entries : List (PersonKindSelector × PersonQualified)) :
    validate d gen entries = validateSpec d gen entries
    ∧ ((∀ s ∈ d.sets, coversSet d gen entries s = false) →
        validate d gen entries = entries)
    ∧ (∀ s ∈ d.sets, coversSet d gen entries s = true →
        (validate d gen entries).length = 1) := by
  refine ⟨?_, ?_, ?_⟩
  · rw [validateSpec, validateSpecLoop_eq]
    rfl
  · intro hall
    have hnone : d.sets.find? (coversSet d gen entries) = none := by
      rw [List.find?_eq_none]
      intro s hs
      simp [hall s hs]
    rw [validate, hnone]
  · intro s hs hc
    have hsome : (d.sets.find? (coversSet d gen entries)).isSome = true :=
      List.find?_isSome.mpr ⟨s, hs, hc⟩
    cases hf : d.sets.find? (coversSet d gen entries) with
    | none => rw [hf] at hsome; simp at hsome
    | some s0 => rw [validate, hf]; rfl

/-- Witness for claim C2: the empty bucket covers no tone set and is
returned unaltered. -/
theorem c2_witness :
    (∀ s ∈ toneDim.sets,
      coversSet toneDim ⟨none, none, none⟩
        ([] : List (PersonKindSelector × PersonQualified)) s = false)
    ∧ validate toneDim ⟨none, none, none⟩ [] = [] := by
  have hall : ∀ s ∈ toneDim.sets,
      coversSet toneDim ⟨none, none, none⟩
        ([] : List (PersonKindSelector × PersonQualified)) s = false := by
    decide
  exact ⟨hall,
    (c2_validate_algorithm toneDim ⟨none, none, none⟩ []).2.1 hall⟩

/-- `charsLt` is asymmetric. -/
theorem charsLt_asymm : ∀ x y : List Char,
    charsLt x y = true → charsLt y x = false
  | [], [] => by simp [charsLt]
  | [], _ :: _ => by simp [charsLt]
  | _ :: _, [] => by simp [charsLt]
  | a :: as, b :: bs => by
    intro h
    simp only [charsLt] at h ⊢
    by_cases hab : a = b
    · rw [if_pos hab] at h
      rw [if_pos hab.symm]
      exact charsLt_asymm as bs h
    · rw [if_neg hab] at h
      rw [if_neg (fun hba => hab hba.symm)]
      exact decide_eq_false (lt_asymm (of_decide_eq_true h))

/-- Negative transitivity of `charsLt` (the complement is transitive). -/
theorem charsLt_neg_trans : ∀ x y z : List Char,
    charsLt y x = false → charsLt z y = false → charsLt z x = false
  | [], _, [] => fun _ _ => rfl
  | _ :: _, [], [] => fun h1 _ => by simp [charsLt] at h1
  | _ :: _, _ :: _, [] => fun _ h2 => by simp [charsLt] at h2
  | [], [], _ :: _ => fun _ _ => rfl
  | [], _ :: _, _ :: _ => fun _ _ => rfl
  | _ :: _, [], _ :: _ => fun h1 _ => by simp [charsLt] at h1
  | a :: as, b :: bs, c :: cs => fun h1 h2 => by
    simp only [charsLt] at h1 h2 ⊢
    by_cases hba : b = a
    · rw [if_pos hba] at h1
      by_cases hcb : c = b
      · rw [if_pos hcb] at h2
        rw [if_pos (hcb.trans hba)]
        exact charsLt_neg_trans as bs cs h1 h2
      · rw [if_neg hcb] at h2
        rw [if_neg (fun h => hcb (h.trans hba.symm)), ← hba]
        exact h2
    · rw [if_neg hba] at h1
      by_cases hcb : c = b
      · rw [if_pos hcb] at h2
        rw [if_neg (fun h => hba (hcb.symm.trans h)), hcb]
        exact h1
      · rw [if_neg hcb] at h2
        have h1p : ¬ b < a := of_decide_eq_false h1
        have h2p : ¬ c < b := of_decide_eq_false h2
        have hca : ¬ c = a := by
          intro hceq
          exact hba (le_antisymm (not_lt.mp (hceq ▸ h2p)) (not_lt.mp h1p))
        rw [if_neg hca]
        exact decide_eq_false
          (not_lt.mpr (le_trans (not_lt.mp h1p) (not_lt.mp h2p)))

/-- `charsLt` is connex: incomparable lists are equal. -/
theorem charsLt_conn : ∀ x y : List Char,
    charsLt x y = false → charsLt y x = false → x = y
  | [], [] => fun _ _ => rfl
  | [], _ :: _ => fun h _ => by simp [charsLt] at h
  | _ :: _, [] => fun _ h => by simp [charsLt] at h
  | a :: as, b :: bs => fun h1 h2 => by
    simp only [charsLt] at h1 h2
    by_cases hab : a = b
    · rw [if_pos hab] at h1
      rw [if_pos hab.symm] at h2
      rw [hab, charsLt_conn as bs h1 h2]
    · rw [if_neg hab] at h1
      rw [if_neg (fun h => hab h.symm)] at h2
      exact absurd (le_antisymm (not_lt.mp (of_decide_eq_false h2))
        (not_lt.mp (of_decide_eq_false h1))) hab

/-- `strLt` is asymmetric. -/
theorem strLt_asymm (a b : String) : strLt a b = true → strLt b a = false :=
  charsLt_asymm a.data b.data

/-- Negative transitivity of `strLt`. -/
theorem strLt_neg_trans (a b c : String) :
    strLt b a = false → strLt c b = false → strLt c a = false :=
  charsLt_neg_trans a.data b.data c.data

/-- Incomparable strings are equal. -/
theorem strLt_conn (a b : String) :
    strLt a b = false → strLt b a = false → a = b := by
  intro h1 h2
  have hd := charsLt_conn a.data b.data h1 h2
  cases a
  cases b
  exact congrArg String.mk hd

/-- A map with pairwise-distinct images is injective on the list. -/
theorem inj_on_of_map_nodup {α β : Type} (f : α → β) :
    ∀ l : List α, (l.map f).Nodup →
      ∀ a ∈ l, ∀ b ∈ l, f a = f b → a = b
  | [] => fun _ a ha => absurd ha (List.not_mem_nil a)
  | x :: t => fun hn a ha b hb hfab => by
    rw [List.map_cons, List.nodup_cons] at hn
    rcases List.mem_cons.mp ha with hax | hat
    · rcases List.mem_cons.mp hb with hbx | hbt
      · rw [hax, hbx]
      · exfalso
        apply hn.1
        rw [← hax, hfab]
        exact List.mem_map_of_mem f hbt
    · rcases List.mem_cons.mp hb with hbx | hbt
      · exfalso
        apply hn.1
        rw [← hbx, ← hfab]
        exact List.mem_map_of_mem f hat
      · exact inj_on_of_map_nodup f t hn.2 a hat b hbt hfab

/-- Sorted insertion preserves sortedness, for an asymmetric, negatively
transitive strict order. -/
theorem insertSorted_pairwise {α : Type} (lt : α → α → Bool)
    (hasym : ∀ a b, lt a b = true → lt b a = false)
    (hneg : ∀ a b c, lt b a = false → lt c b = false → lt c a = false)
    (a : α) :
    ∀ l : List α, l.Pairwise (fun x y => lt y x = false) →
      (insertSorted lt a l).Pairwise (fun x y => lt y x = false)
  | [] => fun _ => by simp [insertSorted]
  | b :: l => fun hp => by
    show (if lt b a = true then b :: insertSorted lt a l
        else a :: b :: l).Pairwise _
    rw [List.pairwise_cons] at hp
    by_cases hba : lt b a = true
    · rw [if_pos hba]
      rw [List.pairwise_cons]
      constructor
      · intro x hx
        rcases List.mem_cons.mp ((insertSorted_perm lt a l).mem_iff.mp hx)
          with hxa | hxl
        · rw [hxa]
          exact hasym b a hba
        · exact hp.1 x hxl
      · exact insertSorted_pairwise lt hasym hneg a l hp.2
    · rw [if_neg hba]
      have hba2 : lt b a = false := by
        cases h : lt b a with
        | true => exact absurd h hba
        | false => rfl
      rw [List.pairwise_cons]
      constructor
      · intro x hx
        rcases List.mem_cons.mp hx with hxb | hxl
        · rw [hxb]
          exact hba2
        · exact hneg a b x hba2 (hp.1 x hxl)
      · rw [List.pairwise_cons]
        exact ⟨hp.1, hp.2⟩

/-- The stable sort output is sorted (complement-pairwise). -/
theorem stableSort_pairwise {α : Type} (lt : α → α → Bool)
    (hasym : ∀ a b, lt a b = true → lt b a = false)
    (hneg : ∀ a b c, lt b a = false → lt c b = false → lt c a = false) :
    ∀ l : List α,
      (stableSort lt l).Pairwise (fun x y => lt y x = false)
  | [] => by simp [stableSort]
  | a :: l => by
    show (insertSorted lt a (stableSort lt l)).Pairwise _
    exact insertSorted_pairwise lt hasym hneg a _
      (stableSort_pairwise lt hasym hneg l)

/-- Two sorted permutations whose incomparable members coincide are
equal. -/
theorem eq_of_perm_of_sorted_distinct {α : Type} (lt : α → α → Bool) :
    ∀ l1 l2 : List α, l1.Perm l2 →
      l1.Pairwise (fun x y => lt y x = false) →
      l2.Pairwise (fun x y => lt y x = false) →
      (∀ a ∈ l1, ∀ b ∈ l1, lt a b = false → lt b a = false → a = b) →
      l1 = l2
  | [], l2 => fun hp _ _ _ => (hp.symm.eq_nil).symm
  | a :: t1, [] => fun hp _ _ _ => by
    have := hp.eq_nil
    simp at this
  | a :: t1, b :: t2 => fun hp hs1 hs2 hdist => by
    by_cases hab : a = b
    · subst hab
      have hpt : t1.Perm t2 := hp.cons_inv
      rw [List.pairwise_cons] at hs1 hs2
      rw [eq_of_perm_of_sorted_distinct lt t1 t2 hpt hs1.2 hs2.2
        (fun x hx y hy => hdist x (List.mem_cons_of_mem _ hx) y
          (List.mem_cons_of_mem _ hy))]
    · exfalso
      have hat2 : a ∈ t2 := by
        rcases List.mem_cons.mp (hp.mem_iff.mp (List.mem_cons_self a t1))
          with h | h
        · exact absurd h hab
        · exact h
      have hbt1 : b ∈ t1 := by
        rcases List.mem_cons.mp (hp.mem_iff.mpr (List.mem_cons_self b t2))
          with h | h
        · exact absurd h.symm hab
        · exact h
      rw [List.pairwise_cons] at hs1 hs2
      exact hab (hdist a (List.mem_cons_self a t1) b
        (List.mem_cons_of_mem _ hbt1) (hs2.1 a hat2) (hs1.1 b hbt1))

/-- The stable sort of a list is determined by its multiset of elements,
provided incomparable members coincide: input (hash) order is
irrelevant. -/
theorem stableSort_eq_of_perm {α : Type} (lt : α → α → Bool)
    (hasym : ∀ a b, lt a b = true → lt b a = false)
    (hneg : ∀ a b c, lt b a = false → lt c b = false → lt c a = false)
    (l1 l2 : List α) (hp : l1.Perm l2)
    (hdist : ∀ a ∈ l1, ∀ b ∈ l1,
      lt a b = false → lt b a = false → a = b) :
    stableSort lt l1 = stableSort lt l2 := by
  apply eq_of_perm_of_sorted_distinct lt
  · exact (stableSort_perm lt l1).trans
      (hp.trans (stableSort_perm lt l2).symm)
  · exact stableSort_pairwise lt hasym hneg l1
  · exact stableSort_pairwise lt hasym hneg l2
  · intro a ha b hb
    exact hdist a ((stableSort_perm lt l1).mem_iff.mp ha) b
      ((stableSort_perm lt l1).mem_iff.mp hb)

/-- Key presence is invariant under permutation of the map entries. -/
theorem perm_containsKey {α β : Type} [DecidableEq α]
    {m1 m2 : List (α × β)} (hp : m1.Perm m2) (k : α) :
    containsKey m1 k = containsKey m2 k := by
  cases h1 : containsKey m1 k with
  | true =>
    obtain ⟨kv, hkv, hk⟩ := containsKey_iff.mp h1
    exact (containsKey_iff.mpr ⟨kv, hp.mem_iff.mp hkv, hk⟩).symm
  | false =>
    cases h2 : containsKey m2 k with
    | false => rfl
    | true =>
      obtain ⟨kv, hkv, hk⟩ := containsKey_iff.mp h2
      have := containsKey_iff.mpr ⟨kv, hp.mem_iff.mpr hkv, hk⟩
      simp [this] at h1

/-- In a map with pairwise-distinct keys, a member entry is the lookup
result. -/
theorem lookup_eq_of_mem_nodup {α β : Type} [DecidableEq α] :
    ∀ (m : List (α × β)) (k : α) (v : β),
      (m.map Prod.fst).Nodup → (k, v) ∈ m → lookupKey m k = some v
  | [], _, _ => fun _ hm => absurd hm (List.not_mem_nil _)
  | (a1, a2) :: t, k, v => fun hn hm => by
    rw [List.map_cons, List.nodup_cons] at hn
    rw [lookupKey_cons]
    rcases List.mem_cons.mp hm with hh | ht
    · have h1 : a1 = k := (congrArg Prod.fst hh).symm
      have h2 : v = a2 := congrArg Prod.snd hh
      rw [if_pos h1, h2]
    · by_cases hak : a1 = k
      · exfalso
        apply hn.1
        rw [hak]
        exact List.mem_map.mpr ⟨(k, v), ht, rfl⟩
      · rw [if_neg hak]
        exact lookup_eq_of_mem_nodup t k v hn.2 ht

/-- Lookups are invariant under permutation of a distinct-key map. -/
theorem perm_lookupKey {α β : Type} [DecidableEq α]
    {m1 m2 : List (α × β)} (hp : m1.Perm m2)
    (hn : (m1.map Prod.fst).Nodup) (k : α) :
    lookupKey m1 k = lookupKey m2 k := by
  have hn2 : (m2.map Prod.fst).Nodup := (hp.map Prod.fst).nodup_iff.mp hn
  cases h1 : lookupKey m1 k with
  | some v =>
    have hmem : (k, v) ∈ m1 := by
      unfold lookupKey at h1
      cases hf : List.find? (fun kv => decide (kv.1 = k)) m1 with
      | none => rw [hf] at h1; simp at h1
      | some kv =>
        rw [hf] at h1
        have hk : kv.1 = k := of_decide_eq_true
          (@List.find?_some _ (fun kv => decide (kv.1 = k)) kv m1 hf)
        have hv : kv.2 = v := by simpa using h1
        have hkv : kv = (k, v) := Prod.ext hk hv
        rw [← hkv]
        exact List.mem_of_find?_eq_some hf
    exact (lookup_eq_of_mem_nodup m2 k v hn2 (hp.mem_iff.mp hmem)).symm
  | none =>
    cases h2 : lookupKey m2 k with
    | none => rfl
    | some v =>
      have hc1 : containsKey m1 k = true := by
        rw [perm_containsKey hp k]
        exact containsKey_of_lookup h2
      obtain ⟨w, hw⟩ := lookup_of_containsKey hc1
      rw [hw] at h1
      exact absurd h1 (by simp)

/-- `buildNode` written out via `translatedEntries`. -/
theorem buildNode_unfold {T : Type} [DecidableEq T] (d : Dim T)
    (gen : PersonKindSelector)
    (entries : List (PersonKindSelector × PersonQualified))
    (s : QualifierSet T) :
    buildNode d gen entries s
      = (gen, PersonQualified.Node
          (lookupKey entries (d.setSel gen (some none)))
          ((stableSort (fun a b => a.1.key < b.1.key)
              (translatedEntries d gen s entries)).map (fun kv =>
            (s.const_access_generator (unwrapSlot (d.getSel kv.1) d.junk),
             s.access_generator (unwrapSlot (d.getSel kv.1) d.junk),
             kv.2)))
          s.type_name) := rfl

/-- Claim C9: the emission is deterministic — it does not depend on
hash-map iteration order.  The constants list of a subgroup (`sort` then
`dedup` of the map keys) depends only on the multiset of keys, and a
validated bucket's node (the per-dimension sub-entries sorted by the
selector order) depends only on the multiset of bucket entries, given
distinct bucket keys and distinct normalized sort keys. -/
theorem c9_deterministic_emission :
    (∀ l1 l2 : List String, l1.Perm l2 → constantsOf l1 = constantsOf l2)
    ∧ (∀ (T : Type) (inst : DecidableEq T) (d : Dim T)
        (gen : PersonKindSelector) (s : QualifierSet T)
        (e1 e2 : List (PersonKindSelector × PersonQualified)),
        e1.Perm e2 →
        (e1.map Prod.fst).Nodup →
        d.sets.find? (@coversSet T inst d gen e1) = some s →
        ((translatedEntries d gen s e1).map (fun kv => kv.1.key)).Nodup →
        @validate T inst d gen e1 = @validate T inst d gen e2) := by
  constructor
  · intro l1 l2 hp
    unfold constantsOf
    rw [stableSort_eq_of_perm strLt strLt_asymm strLt_neg_trans l1 l2 hp
      (fun a _ b _ h1 h2 => strLt_conn a b h1 h2)]
  · intro T inst d gen s e1 e2 hp hnd hfind hkn
    have hcov : @coversSet T inst d gen e1 = @coversSet T inst d gen e2 := by
      funext s0
      unfold coversSet
      congr 1
      funext t
      exact perm_containsKey hp _
    have hfind2 : d.sets.find? (@coversSet T inst d gen e2) = some s := by
      rw [← hcov]
      exact hfind
    have hpt : (translatedEntries d gen s e1).Perm
        (translatedEntries d gen s e2) := by
      unfold translatedEntries
      cases htr : s.kind_translator with
      | some tr => exact List.Perm.map _ (List.Perm.filter _ hp)
      | none => exact List.Perm.filter _ hp
    have hsort : stableSort (fun a b => a.1.key < b.1.key)
          (translatedEntries d gen s e1)
        = stableSort (fun a b => a.1.key < b.1.key)
          (translatedEntries d gen s e2) := by
      refine stableSort_eq_of_perm _ ?_ ?_ _ _ hpt ?_
      · intro a b h
        exact decide_eq_false (lt_asymm (of_decide_eq_true h))
      · intro a b c h1 h2
        exact decide_eq_false (not_lt.mpr
          (le_trans (not_lt.mp (of_decide_eq_false h1))
            (not_lt.mp (of_decide_eq_false h2))))
      · intro a ha b hb h1 h2
        apply inj_on_of_map_nodup (fun kv => kv.1.key) _ hkn a ha b hb
        exact Nat.le_antisymm (not_lt.mp (of_decide_eq_false h2))
          (not_lt.mp (of_decide_eq_false h1))
    have hdef : lookupKey e1 (d.setSel gen (some none))
        = lookupKey e2 (d.setSel gen (some none)) :=
      perm_lookupKey hp hnd _
    unfold validate
    rw [hfind, hfind2]
    show [buildNode d gen e1 s] = [buildNode d gen e2 s]
    rw [buildNode_unfold, buildNode_unfold, hdef, hsort]

/-- Witness for claim C9: a reversed tone bucket and a permuted key list
give the same node and the same constants. -/
theorem c9_witness :
    constantsOf ["b", "a", "a"] = constantsOf ["a", "a", "b"]
    ∧ validate toneDim ⟨none, none, none⟩ exBucketA
      = validate toneDim ⟨none, none, none⟩ exBucketB := by
  constructor
  · exact c9_deterministic_emission.1 ["b", "a", "a"] ["a", "a", "b"]
      (by decide)
  · exact c9_deterministic_emission.2 (Tone × Option Tone) inferInstance
      toneDim ⟨none, none, none⟩ (toneSets.get ⟨2, by decide⟩)
      exBucketA exBucketB (List.reverse_perm exBucketA).symm
      (by decide) (by rfl) (by decide)

end Theorems

end Emojic
